import Mathlib

/-!
# Verification of `resizable_segment_tree.py`

This file gives a shallow embedding of the module `resizable_segment_tree.py`
(a non-recursive segment tree supporting `append`) and proves / refutes the
claims of its specification.

Modelling conventions:

* Python `int` is modelled by `Int`; the bitwise operators `~`, `&`, `|`, `<<`
  are modelled by `pnot`, `pand`, `por`, `pshl` with Python's two's-complement
  semantics on arbitrary-precision integers.
* A Python list of optional values is `List (Option T)`; Python subscripts
  (including negative indices) are modelled by `pyGet` / `pySet`, which raise
  `PyErr.indexError` exactly when Python raises `IndexError`.
* Raised exceptions are explicit values of `PyErr`.  Calling the user-supplied
  `func` with a `None` operand is modelled by `PyErr.typeError` (with an
  arbitrary combine operator such as integer addition, Python raises
  `TypeError` there; the typed model cannot apply `f : T → T → T` to an absent
  value).  The final `assert left is not None or right is not None` of `query`
  is given its own error `PyErr.invariantViolation`, matching the error
  taxonomy of the specification; the three precondition `assert`s of `query`
  raise `PyErr.assertionError`.
* `while` loops are modelled with an explicit fuel parameter; the public
  entry points pass fuel `len(tree) + 1`, which is proved sufficient, and
  exhaustion is the (never occurring on these entry points) `PyErr.outOfFuel`.
* Mutating operations return the buffer after the call together with
  `Option PyErr`: `none` means normal completion, `some e` means the
  operation raised `e` with the returned (possibly partially mutated) buffer
  as the state the object is left in.
-/

set_option autoImplicit false

/-- The exceptions an execution of the module can raise (see module docstring
above for the correspondence with Python exceptions). -/
inductive PyErr where
  | indexError
  | assertionError
  | typeError
  | invariantViolation
  | outOfFuel
deriving DecidableEq, Repr

deriving instance DecidableEq for Except

/-- Python bitwise complement `~x` on arbitrary-precision integers. -/
def pnot (x : Int) : Int := -(x + 1)

/-- `a AND NOT b` on naturals (the same function as `Nat.ldiff`, written with
the kernel-evaluable primitives `^^^` and `&&&`; see `nldiff_eq`). -/
def nldiff (a b : Nat) : Nat := a ^^^ (a &&& b)

/-- Python bitwise and `x & y` (two's-complement semantics). -/
def pand (x y : Int) : Int :=
  if 0 ≤ x then
    if 0 ≤ y then ((x.toNat &&& y.toNat : Nat) : Int)
    else ((nldiff x.toNat (pnot y).toNat : Nat) : Int)
  else
    if 0 ≤ y then ((nldiff y.toNat (pnot x).toNat : Nat) : Int)
    else pnot (((pnot x).toNat ||| (pnot y).toNat : Nat) : Int)

/-- Python bitwise or `x | y` (two's-complement semantics). -/
def por (x y : Int) : Int :=
  if 0 ≤ x then
    if 0 ≤ y then ((x.toNat ||| y.toNat : Nat) : Int)
    else pnot ((nldiff (pnot y).toNat x.toNat : Nat) : Int)
  else
    if 0 ≤ y then pnot ((nldiff (pnot x).toNat y.toNat : Nat) : Int)
    else pnot (((pnot x).toNat &&& (pnot y).toNat : Nat) : Int)

/-- Python left shift `x << n` for a nonnegative shift amount. -/
def pshl (x : Int) (n : Nat) : Int := x * 2 ^ n

/-- Translation of a Python list subscript for a list of length `len`:
`some n` with the physical index `n`, or `none` when Python raises
`IndexError`. -/
def pyIdx (len : Nat) (i : Int) : Option Nat :=
  if 0 ≤ i ∧ i < (len : Int) then some i.toNat
  else if 0 ≤ i + len ∧ i < 0 then some (i + len).toNat
  else none

/-- Python list read `l[i]`. -/
def pyGet {α : Type} (l : List α) (i : Int) : Except PyErr α :=
  match pyIdx l.length i with
  | some n =>
    match l[n]? with
    | some a => .ok a
    | none => .error .indexError
  | none => .error .indexError

/-- Python list write `l[i] = v`. -/
def pySet {α : Type} (l : List α) (i : Int) (v : α) : Except PyErr (List α) :=
  match pyIdx l.length i with
  | some n => .ok (l.set n v)
  | none => .error .indexError

variable {T : Type}

/-- The climb `while j & (k<<1): p = j & ~k | (k<<1); tree[p] = func(tree[j & ~(k<<1)], tree[j]); j = p; k <<= 1`
inside `__init__`. -/
def initLoop (f : T → T → T) :
    Nat → List (Option T) → Int → Int → List (Option T) × Option PyErr
  | 0, tree, _, _ => (tree, some .outOfFuel)
  | fuel + 1, tree, j, k =>
    if pand j (pshl k 1) ≠ 0 then
      match pyGet tree (pand j (pnot (pshl k 1))), pyGet tree j with
      | .error e, _ => (tree, some e)
      | .ok _, .error e => (tree, some e)
      | .ok a, .ok b =>
        match a, b with
        | some x, some y =>
          match pySet tree (por (pand j (pnot k)) (pshl k 1)) (some (f x y)) with
          | .error e => (tree, some e)
          | .ok t2 => initLoop f fuel t2 (por (pand j (pnot k)) (pshl k 1)) (pshl k 1)
        | _, _ => (tree, some .typeError)
    else (tree, none)

/-- One iteration of `for i, value in enumerate(values):` in `__init__`:
place leaf `i` (`tree[j] = value` with `j = (i<<1) | 1`, `k = 1`) and climb.
A previously raised exception aborts the remaining iterations. -/
def initStep (f : T → T → T) (acc : List (Option T) × Option PyErr) (i : Nat) (v : T) :
    List (Option T) × Option PyErr :=
  match acc with
  | (tree, some e) => (tree, some e)
  | (tree, none) =>
    match pySet tree (por (pshl (i : Int) 1) 1) (some v) with
    | .error e => (tree, some e)
    | .ok t1 => initLoop f (tree.length + 1) t1 (por (pshl (i : Int) 1) 1) 1

/-- The `for i, value in enumerate(values)` loop of `__init__`, with `i`
starting at the given index. -/
def initPass (f : T → T → T) :
    List T → Nat → List (Option T) × Option PyErr → List (Option T) × Option PyErr
  | [], _, acc => acc
  | v :: rest, i, acc => initPass f rest (i + 1) (initStep f acc i v)

/-- `__init__(func, values)`: preallocate `(len(values)<<1) * [None]` and run the
construction loop. -/
def initFold (f : T → T → T) (values : List T) : List (Option T) × Option PyErr :=
  initPass f values 0 (List.replicate (values.length <<< 1) none, none)

/-- The climb `while j | (k<<1) < len(tree): p = j & ~k | (k<<1); tree[p] = func(tree[j & ~(k<<1)], tree[j | (k<<1)]); j = p; k <<= 1`
inside `__setitem__`. -/
def setLoop (f : T → T → T) :
    Nat → List (Option T) → Int → Int → List (Option T) × Option PyErr
  | 0, tree, _, _ => (tree, some .outOfFuel)
  | fuel + 1, tree, j, k =>
    if por j (pshl k 1) < (tree.length : Int) then
      match pyGet tree (pand j (pnot (pshl k 1))), pyGet tree (por j (pshl k 1)) with
      | .error e, _ => (tree, some e)
      | .ok _, .error e => (tree, some e)
      | .ok a, .ok b =>
        match a, b with
        | some x, some y =>
          match pySet tree (por (pand j (pnot k)) (pshl k 1)) (some (f x y)) with
          | .error e => (tree, some e)
          | .ok t2 => setLoop f fuel t2 (por (pand j (pnot k)) (pshl k 1)) (pshl k 1)
        | _, _ => (tree, some .typeError)
    else (tree, none)

/-- `__setitem__(i, value)`: `tree[(i<<1) | 1] = value`, then climb. -/
def setitem (f : T → T → T) (tree : List (Option T)) (i : Int) (v : T) :
    List (Option T) × Option PyErr :=
  match pySet tree (por (pshl i 1) 1) (some v) with
  | .error e => (tree, some e)
  | .ok t1 => setLoop f (tree.length + 1) t1 (por (pshl i 1) 1) 1

/-- `__getitem__(i)`: `return self.tree[(i<<1) | 1]`. -/
def getitem (tree : List (Option T)) (i : Int) : Except PyErr (Option T) :=
  pyGet tree (por (pshl i 1) 1)

/-- `__len__`: `len(self.tree) >> 1`. -/
def size (tree : List (Option T)) : Nat := tree.length >>> 1

/-- `append(value)`: remember `i = len(tree) >> 1`, extend by two empty slots
(`tree += (None, None)`), then `self[i] = value`. -/
def append (f : T → T → T) (tree : List (Option T)) (v : T) :
    List (Option T) × Option PyErr :=
  setitem f (tree ++ [none, none]) ((tree.length >>> 1 : Nat) : Int) v

/-- `left = tree[i] if left is None else func(left, tree[i])`: the slot value is
the second argument; combining with an absent slot value raises. -/
def accLeft (f : T → T → T) : Option T → Option T → Except PyErr (Option T)
  | none, a => .ok a
  | some x, some y => .ok (some (f x y))
  | some _, none => .error .typeError

/-- `right = tree[j] if right is None else func(tree[j], right)`: the slot value
is the first argument. -/
def accRight (f : T → T → T) : Option T → Option T → Except PyErr (Option T)
  | a, none => .ok a
  | some x, some y => .ok (some (f x y))
  | none, some _ => .error .typeError

/-- The main `while i < j:` loop of `query`, returning the two accumulators. -/
def queryLoop (f : T → T → T) (tree : List (Option T)) :
    Nat → Int → Int → Int → Option T → Option T → Except PyErr (Option T × Option T)
  | 0, _, _, _, _, _ => .error .outOfFuel
  | fuel + 1, i, j, k, left, right =>
    if i < j then
      match (if pand i (pshl k 1) ≠ 0 then
              match pyGet tree i with
              | .error e => .error e
              | .ok a =>
                match accLeft f left a with
                | .error e => .error e
                | .ok left1 => .ok (left1, i + pshl k 1)
            else .ok (left, i) : Except PyErr (Option T × Int)) with
      | .error e => .error e
      | .ok (left1, i1) =>
        match (if pand j (pshl k 1) ≠ 0 then
                match pyGet tree (j - pshl k 1) with
                | .error e => .error e
                | .ok b =>
                  match accRight f b right with
                  | .error e => .error e
                  | .ok right1 => .ok (right1, j - pshl k 1)
              else .ok (right, j) : Except PyErr (Option T × Int)) with
        | .error e => .error e
        | .ok (right1, j1) =>
          queryLoop f tree fuel (por (pand i1 (pnot k)) (pshl k 1))
            (por (pand j1 (pnot k)) (pshl k 1)) (pshl k 1) left1 right1
    else .ok (left, right)

/-- `query(i, j)`: the three precondition asserts, the boundary initialisation
`i = (i<<1) | 1`, `j = (j<<1) | 1`, the loop, and the final merge of the two
accumulators (with the final assert modelled by `PyErr.invariantViolation`). -/
def query (f : T → T → T) (tree : List (Option T)) (i j : Int) : Except PyErr T :=
  if ¬(0 ≤ i ∧ i < (size tree : Int)) then .error .assertionError
  else if ¬(0 < j ∧ j ≤ (size tree : Int)) then .error .assertionError
  else if ¬(i < j) then .error .assertionError
  else
    match queryLoop f tree (tree.length + 1) (por (pshl i 1) 1) (por (pshl j 1) 1) 1 none none with
    | .error e => .error e
    | .ok (none, none) => .error .invariantViolation
    | .ok (none, some r) => .ok r
    | .ok (some l, none) => .ok l
    | .ok (some l, some r) => .ok (f l r)

/-- States of the structure reachable by the public interface: a construction
followed by any sequence of normally completing `set` / `append` calls
(`get`, `query` and `len` do not mutate the buffer).  `Reach f L tree` says
the buffer `tree` is reachable with logical contents `L`. -/
inductive Reach (f : T → T → T) : List T → List (Option T) → Prop where
  | construct (values : List T) : Reach f values (initFold f values).1
  | setOk {L tree} (i : Nat) (v : T) (tree' : List (Option T)) :
      Reach f L tree → i < L.length →
      setitem f tree (i : Int) v = (tree', none) →
      Reach f (L.set i v) tree'
  | appendOk {L tree} (v : T) (tree' : List (Option T)) :
      Reach f L tree → append f tree v = (tree', none) →
      Reach f (L ++ [v]) tree'

/-!
## The specification layer

`nodeVal f L t m` is the value the tree documentation assigns to the internal
node of level `t` (slot coordinate `2^t * (2*m+1)`), covering logical
positions `[m*2^t, (m+1)*2^t)`: the tree-shaped combination of those leaves,
present exactly when the whole subtree lies inside the current contents.
`specTree f L` is the fully determined buffer contents for logical contents
`L`.  `segFold f L a b` is the flat left-to-right fold of positions `[a, b)`,
which agrees with the tree-shaped value when `f` is associative.
-/

/-- Tree-shaped node value of level `t`, node number `m` (covering logical
positions `[m*2^t, (m+1)*2^t)`); `none` when the subtree is incomplete. -/
def nodeVal (f : T → T → T) (L : List T) : Nat → Nat → Option T
  | 0, m => L[m]?
  | t + 1, m =>
    match nodeVal f L t (2 * m), nodeVal f L t (2 * m + 1) with
    | some x, some y => some (f x y)
    | _, _ => none

/-- Exponent of the lowest set bit (2-adic valuation); `v2 0 = 0`. -/
def v2 (c : Nat) : Nat :=
  if h : c = 0 then 0
  else if c % 2 = 1 then 0
  else 1 + v2 (c / 2)
decreasing_by exact Nat.div_lt_self (Nat.pos_of_ne_zero h) one_lt_two

/-- The specified content of slot coordinate `c`: slot `0` is permanently
unused; slot `c = 2^t * (2*m+1)` holds `nodeVal f L t m`. -/
def slotSpec (f : T → T → T) (L : List T) (c : Nat) : Option T :=
  if c = 0 then none else nodeVal f L (v2 c) ((c >>> v2 c) / 2)

/-- The specified buffer contents for logical contents `L`. -/
def specTree (f : T → T → T) (L : List T) : List (Option T) :=
  (List.range (2 * L.length)).map (slotSpec f L)

/-- Left-to-right fold of a list segment (`none` on the empty list). -/
def sliceFold (f : T → T → T) : List T → Option T
  | [] => none
  | x :: xs => some (xs.foldl f x)

/-- Left-to-right fold of logical positions `[a, b)` of `L`. -/
def segFold (f : T → T → T) (L : List T) (a b : Nat) : Option T :=
  sliceFold f ((L.drop a).take (b - a))

/-- Merge of two optional values, `none` acting as a neutral element. -/
def omerge (f : T → T → T) : Option T → Option T → Option T
  | none, y => y
  | some x, none => some x
  | some x, some y => some (f x y)

/-- The slot coordinate of the ancestor of leaf `pos` at level `t`. -/
def ancCoord (pos t : Nat) : Nat := 2 ^ t * (2 * (pos / 2 ^ t) + 1)

/-- The invariant of the climb of `__setitem__` on the main path: entering
the iteration of level `t`, every slot other than the ancestors of `pos`
strictly above level `t` already holds its specified content for the new
logical contents `L'`, the stale strict ancestors that are incomplete are
still empty, and the ancestor at the current level is complete. -/
def ClimbInv (f : T → T → T) (L' : List T) (pos t : Nat) (tree : List (Option T)) : Prop :=
  tree.length = 2 * L'.length ∧
  (∀ c, c < 2 * L'.length → (∀ s, t + 1 ≤ s → c ≠ ancCoord pos s) →
      tree[c]? = (specTree f L')[c]?) ∧
  (∀ s, t + 1 ≤ s → ancCoord pos s < 2 * L'.length →
      L'.length < 2 ^ s * (pos / 2 ^ s + 1) → tree[ancCoord pos s]? = some none) ∧
  2 ^ t * (pos / 2 ^ t + 1) ≤ L'.length

/-- During construction, after placing the first `p` values the buffer is
the specified contents of that prefix followed by untouched empty slots. -/
def specPad (f : T → T → T) (L : List T) (R : Nat) : List (Option T) :=
  specTree f L ++ List.replicate (2 * R) none

/-- The invariant of the construction climb, which always ascends from the
ancestor of the *last* position of the prefix, whose subtree is exactly
complete. -/
def InitInv (f : T → T → T) (L' : List T) (R pos t : Nat) (B : List (Option T)) : Prop :=
  B.length = 2 * L'.length + 2 * R ∧
  (∀ c, c < 2 * L'.length + 2 * R → (∀ s, t + 1 ≤ s → c ≠ ancCoord pos s) →
      B[c]? = (specPad f L' R)[c]?) ∧
  (∀ s, t + 1 ≤ s → ancCoord pos s < 2 * L'.length + 2 * R →
      L'.length < 2 ^ s * (pos / 2 ^ s + 1) → B[ancCoord pos s]? = some none) ∧
  2 ^ t * (pos / 2 ^ t + 1) = L'.length

/-- Integer addition, the combine operator of the module's own usage
example; the concrete instances below use it. -/
def iadd : Int → Int → Int := fun a b => a + b


/-!
## Bitwise bridge lemmas

The loop indices on the main (nonnegative) path always have the shape
`2^t * (2*m+1)` (a node of level `t`); these lemmas characterise the Python
bit operations of the source on that shape in plain arithmetic.
-/

theorem nldiff_eq (a b : Nat) : nldiff a b = Nat.ldiff a b := by
  apply Nat.eq_of_testBit_eq
  intro i
  unfold nldiff
  rw [Nat.testBit_ldiff, Nat.testBit_xor, Nat.testBit_land]
  cases a.testBit i <;> cases b.testBit i <;> rfl

theorem testBit_zero_decide (n : Nat) : n.testBit 0 = decide (n % 2 = 1) := by
  simp [Nat.testBit_to_div_mod]

theorem testBit_shift_one (u : Nat) (b : Nat) (hb : b < 2) (d : Nat) (hd : 1 ≤ d) :
    (2 * u + b).testBit d = u.testBit (d - 1) := by
  rw [show (2 : Nat) * u + b = 2 ^ 1 * u + b by ring,
    Nat.testBit_mul_pow_two_add u (by simpa using hb), if_neg (by omega)]

theorem nat_and_pow_odd (s q r : Nat) (hr : r < 2 ^ s) (hq : q % 2 = 1) :
    (2 ^ s * q + r) &&& 2 ^ s = 2 ^ s := by
  apply Nat.eq_of_testBit_eq
  intro i
  rw [Nat.testBit_and, Nat.testBit_mul_pow_two_add q hr]
  rcases lt_trichotomy i s with h | h | h
  · simp [if_pos h, Nat.testBit_two_pow_of_ne (Nat.ne_of_gt h)]
  · subst h
    simp [Nat.testBit_two_pow_self, Nat.sub_self, testBit_zero_decide, hq]
  · simp [if_neg (not_lt.mpr (le_of_lt h)), Nat.testBit_two_pow_of_ne (Nat.ne_of_lt h)]

theorem nat_and_pow_even (s q r : Nat) (hr : r < 2 ^ s) (hq : q % 2 = 0) :
    (2 ^ s * q + r) &&& 2 ^ s = 0 := by
  apply Nat.eq_of_testBit_eq
  intro i
  rw [Nat.testBit_and, Nat.testBit_mul_pow_two_add q hr]
  rcases lt_trichotomy i s with h | h | h
  · simp [if_pos h, Nat.testBit_two_pow_of_ne (Nat.ne_of_gt h)]
  · subst h
    simp [Nat.testBit_two_pow_self, Nat.sub_self, testBit_zero_decide, hq]
  · simp [if_neg (not_lt.mpr (le_of_lt h)), Nat.testBit_two_pow_of_ne (Nat.ne_of_lt h)]

theorem nat_or_pow_odd (s q r : Nat) (hr : r < 2 ^ s) (hq : q % 2 = 1) :
    (2 ^ s * q + r) ||| 2 ^ s = 2 ^ s * q + r := by
  apply Nat.eq_of_testBit_eq
  intro i
  rw [Nat.testBit_or]
  rw [Nat.testBit_mul_pow_two_add q hr]
  rcases lt_trichotomy i s with h | h | h
  · simp [if_pos h, Nat.testBit_two_pow_of_ne (Nat.ne_of_gt h)]
  · subst h
    simp [Nat.testBit_two_pow_self, Nat.sub_self, testBit_zero_decide, hq]
  · simp [if_neg (not_lt.mpr (le_of_lt h)), Nat.testBit_two_pow_of_ne (Nat.ne_of_lt h)]

theorem nat_or_pow_even (s q r : Nat) (hr : r < 2 ^ s) (hq : q % 2 = 0) :
    (2 ^ s * q + r) ||| 2 ^ s = 2 ^ s * (q + 1) + r := by
  apply Nat.eq_of_testBit_eq
  intro i
  rw [Nat.testBit_or]
  rw [Nat.testBit_mul_pow_two_add q hr]
  rw [Nat.testBit_mul_pow_two_add (q + 1) hr]
  rcases lt_trichotomy i s with h | h | h
  · simp [if_pos h, Nat.testBit_two_pow_of_ne (Nat.ne_of_gt h)]
  · subst h
    have h1 : (q + 1) % 2 = 1 := by omega
    simp [Nat.testBit_two_pow_self, Nat.sub_self, testBit_zero_decide, hq, h1]
  · have e1 : q.testBit (i - s) = (q / 2).testBit (i - s - 1) := by
      conv_lhs => rw [show q = 2 * (q / 2) + 0 by omega]
      exact testBit_shift_one _ 0 (by norm_num) _ (by omega)
    have e2 : (q + 1).testBit (i - s) = (q / 2).testBit (i - s - 1) := by
      conv_lhs => rw [show q + 1 = 2 * (q / 2) + 1 by omega]
      exact testBit_shift_one _ 1 (by norm_num) _ (by omega)
    simp [if_neg (not_lt.mpr (le_of_lt h)), Nat.testBit_two_pow_of_ne (Nat.ne_of_lt h),
      e1, e2]

theorem nat_ldiff_pow_odd (s q r : Nat) (hr : r < 2 ^ s) (hq : q % 2 = 1) :
    Nat.ldiff (2 ^ s * q + r) (2 ^ s) = 2 ^ s * (q - 1) + r := by
  apply Nat.eq_of_testBit_eq
  intro i
  rw [Nat.testBit_ldiff]
  rw [Nat.testBit_mul_pow_two_add q hr]
  rw [Nat.testBit_mul_pow_two_add (q - 1) hr]
  rcases lt_trichotomy i s with h | h | h
  · simp [if_pos h, Nat.testBit_two_pow_of_ne (Nat.ne_of_gt h)]
  · subst h
    have h1 : (q - 1) % 2 = 0 := by omega
    simp [Nat.testBit_two_pow_self, Nat.sub_self, testBit_zero_decide, hq, h1]
  · have e1 : q.testBit (i - s) = ((q - 1) / 2).testBit (i - s - 1) := by
      conv_lhs => rw [show q = 2 * ((q - 1) / 2) + 1 by omega]
      exact testBit_shift_one _ 1 (by norm_num) _ (by omega)
    have e2 : (q - 1).testBit (i - s) = ((q - 1) / 2).testBit (i - s - 1) := by
      conv_lhs => rw [show q - 1 = 2 * ((q - 1) / 2) + 0 by omega]
      exact testBit_shift_one _ 0 (by norm_num) _ (by omega)
    simp [if_neg (not_lt.mpr (le_of_lt h)), Nat.testBit_two_pow_of_ne (Nat.ne_of_lt h),
      e1, e2]

theorem nat_ldiff_pow_even (s q r : Nat) (hr : r < 2 ^ s) (hq : q % 2 = 0) :
    Nat.ldiff (2 ^ s * q + r) (2 ^ s) = 2 ^ s * q + r := by
  apply Nat.eq_of_testBit_eq
  intro i
  rw [Nat.testBit_ldiff]
  rw [Nat.testBit_mul_pow_two_add q hr]
  rcases lt_trichotomy i s with h | h | h
  · simp [if_pos h, Nat.testBit_two_pow_of_ne (Nat.ne_of_gt h)]
  · subst h
    simp [Nat.testBit_two_pow_self, Nat.sub_self, testBit_zero_decide, hq]
  · simp [if_neg (not_lt.mpr (le_of_lt h)), Nat.testBit_two_pow_of_ne (Nat.ne_of_lt h)]

theorem pnot_pnot (x : Int) : pnot (pnot x) = x := by
  unfold pnot; ring

theorem pnot_neg_of_nonneg {x : Int} (h : 0 ≤ x) : pnot x < 0 := by
  unfold pnot; omega

theorem pand_cast (x y : Nat) : pand (x : Int) (y : Int) = ((x &&& y : Nat) : Int) := by
  unfold pand
  rw [if_pos (by positivity), if_pos (by positivity), Int.toNat_natCast, Int.toNat_natCast]

theorem por_cast (x y : Nat) : por (x : Int) (y : Int) = ((x ||| y : Nat) : Int) := by
  unfold por
  rw [if_pos (by positivity), if_pos (by positivity), Int.toNat_natCast, Int.toNat_natCast]

theorem pandnot_cast (x y : Nat) : pand (x : Int) (pnot (y : Int)) = ((Nat.ldiff x y : Nat) : Int) := by
  unfold pand
  rw [if_pos (by positivity), if_neg (by simpa using pnot_neg_of_nonneg (by positivity : (0:Int) ≤ (y:Int))),
    pnot_pnot, Int.toNat_natCast, Int.toNat_natCast, nldiff_eq]

theorem pshl_cast (x : Nat) (n : Nat) : pshl (x : Int) n = ((x * 2 ^ n : Nat) : Int) := by
  unfold pshl; push_cast; ring

theorem pand_neg_pnot {x : Int} (y : Nat) (hx : x < 0) : pand x (pnot (y : Int)) < 0 := by
  unfold pand
  rw [if_neg (by omega), if_neg (by simpa using pnot_neg_of_nonneg (by positivity : (0:Int) ≤ (y:Int)))]
  exact pnot_neg_of_nonneg (by positivity)

theorem por_neg_nonneg {x : Int} (y : Nat) (hx : x < 0) : por x (y : Int) < 0 := by
  unfold por
  rw [if_neg (by omega), if_pos (by positivity)]
  exact pnot_neg_of_nonneg (by positivity)

/-- `(i << 1) | 1 = 2*i + 1` for every Python integer `i`. -/
theorem leafCoord (i : Int) : por (pshl i 1) 1 = 2 * i + 1 := by
  rcases le_or_lt 0 i with hi | hi
  · obtain ⟨n, rfl⟩ := Int.eq_ofNat_of_zero_le hi
    rw [show ((1:Int) = ((1:Nat) : Int)) by norm_num, pshl_cast, por_cast]
    rw [show n * 2 ^ 1 = 2 ^ 0 * (2 * n) + 0 by ring]
    rw [show (2:Nat) ^ 0 = 1 from rfl]
    rw [show (1:Nat) = 2 ^ 0 from rfl]
    rw [nat_or_pow_even 0 (2 * n) 0 (by norm_num) (by omega)]
    push_cast; ring
  · have h2i : pshl i 1 < 0 := by unfold pshl; nlinarith
    unfold por
    rw [if_neg (by omega), if_pos (by norm_num)]
    have hpn : pnot (pshl i 1) = -(2 * i) - 1 := by unfold pnot pshl; ring
    have hnn : 0 ≤ -(2 * i) - 1 := by omega
    have htn : (pnot (pshl i 1)).toNat = ((-(2 * i) - 1).toNat : Nat) := by rw [hpn]
    have hodd : (-(2 * i) - 1).toNat % 2 = 1 := by omega
    rw [htn, show ((1:Int).toNat = 1) from rfl, nldiff_eq]
    rw [show Nat.ldiff ((-(2 * i) - 1).toNat) 1
        = (-(2 * i) - 1).toNat - 1 by
      have := nat_ldiff_pow_odd 0 ((-(2 * i) - 1).toNat) 0 (by norm_num) hodd
      simpa using this]
    unfold pnot
    omega

theorem pshl_pow (t : Nat) : pshl ((2 ^ t : Nat) : Int) 1 = ((2 ^ (t + 1) : Nat) : Int) := by
  rw [pshl_cast]
  norm_num [pow_succ]

theorem two_pow_lt_succ (t : Nat) : 2 ^ t < 2 ^ (t + 1) := by
  have := Nat.one_le_two_pow (n := t)
  calc 2 ^ t < 2 ^ t + 2 ^ t := by omega
  _ = 2 ^ (t + 1) := by ring

theorem node_and2k_odd (t M : Nat) :
    (2 ^ t * (2 * (2 * M + 1) + 1)) &&& 2 ^ (t + 1) = 2 ^ (t + 1) := by
  rw [show 2 ^ t * (2 * (2 * M + 1) + 1) = 2 ^ (t + 1) * (2 * M + 1) + 2 ^ t by ring]
  exact nat_and_pow_odd (t + 1) (2 * M + 1) (2 ^ t) (two_pow_lt_succ t) (by omega)

theorem node_and2k_even (t M : Nat) :
    (2 ^ t * (2 * (2 * M) + 1)) &&& 2 ^ (t + 1) = 0 := by
  rw [show 2 ^ t * (2 * (2 * M) + 1) = 2 ^ (t + 1) * (2 * M) + 2 ^ t by ring]
  exact nat_and_pow_even (t + 1) (2 * M) (2 ^ t) (two_pow_lt_succ t) (by omega)

theorem node_or2k_odd (t M : Nat) :
    (2 ^ t * (2 * (2 * M + 1) + 1)) ||| 2 ^ (t + 1) = 2 ^ t * (2 * (2 * M + 1) + 1) := by
  rw [show 2 ^ t * (2 * (2 * M + 1) + 1) = 2 ^ (t + 1) * (2 * M + 1) + 2 ^ t by ring]
  exact nat_or_pow_odd (t + 1) (2 * M + 1) (2 ^ t) (two_pow_lt_succ t) (by omega)

theorem node_or2k_even (t M : Nat) :
    (2 ^ t * (2 * (2 * M) + 1)) ||| 2 ^ (t + 1)
      = 2 ^ t * (2 * (2 * M) + 1) + 2 ^ (t + 1) := by
  rw [show 2 ^ t * (2 * (2 * M) + 1) = 2 ^ (t + 1) * (2 * M) + 2 ^ t by ring]
  rw [nat_or_pow_even (t + 1) (2 * M) (2 ^ t) (two_pow_lt_succ t) (by omega)]
  ring

theorem node_ldiff2k_odd (t M : Nat) :
    Nat.ldiff (2 ^ t * (2 * (2 * M + 1) + 1)) (2 ^ (t + 1)) = 2 ^ t * (2 * (2 * M) + 1) := by
  rw [show 2 ^ t * (2 * (2 * M + 1) + 1) = 2 ^ (t + 1) * (2 * M + 1) + 2 ^ t by ring]
  rw [nat_ldiff_pow_odd (t + 1) (2 * M + 1) (2 ^ t) (two_pow_lt_succ t) (by omega)]
  have : 2 * M + 1 - 1 = 2 * M := by omega
  rw [this]; ring

theorem node_ldiff2k_even (t M : Nat) :
    Nat.ldiff (2 ^ t * (2 * (2 * M) + 1)) (2 ^ (t + 1)) = 2 ^ t * (2 * (2 * M) + 1) := by
  rw [show 2 ^ t * (2 * (2 * M) + 1) = 2 ^ (t + 1) * (2 * M) + 2 ^ t by ring]
  exact nat_ldiff_pow_even (t + 1) (2 * M) (2 ^ t) (two_pow_lt_succ t) (by omega)

theorem node_parent_odd (t M : Nat) :
    Nat.ldiff (2 ^ t * (2 * (2 * M + 1) + 1)) (2 ^ t) ||| 2 ^ (t + 1)
      = 2 ^ (t + 1) * (2 * M + 1) := by
  rw [show 2 ^ t * (2 * (2 * M + 1) + 1) = 2 ^ t * (2 * (2 * M + 1) + 1) + 0 by ring]
  rw [show 2 ^ t * (2 * (2 * M + 1) + 1) + 0 = 2 ^ t * (4 * M + 3) + 0 by ring]
  rw [nat_ldiff_pow_odd t (4 * M + 3) 0 (Nat.pos_pow_of_pos t (by norm_num)) (by omega)]
  rw [show 2 ^ t * (4 * M + 3 - 1) + 0 = 2 ^ (t + 1) * (2 * M + 1) + 0 by
    have : 4 * M + 3 - 1 = 4 * M + 2 := by omega
    rw [this]; ring]
  rw [nat_or_pow_odd (t + 1) (2 * M + 1) 0 (Nat.pos_pow_of_pos (t + 1) (by norm_num)) (by omega)]
  omega

theorem node_parent_even (t M : Nat) :
    Nat.ldiff (2 ^ t * (2 * (2 * M) + 1)) (2 ^ t) ||| 2 ^ (t + 1)
      = 2 ^ (t + 1) * (2 * M + 1) := by
  rw [show 2 ^ t * (2 * (2 * M) + 1) = 2 ^ t * (4 * M + 1) + 0 by ring]
  rw [nat_ldiff_pow_odd t (4 * M + 1) 0 (Nat.pos_pow_of_pos t (by norm_num)) (by omega)]
  rw [show 2 ^ t * (4 * M + 1 - 1) + 0 = 2 ^ (t + 1) * (2 * M) + 0 by
    have : 4 * M + 1 - 1 = 4 * M := by omega
    rw [this]; ring]
  rw [nat_or_pow_even (t + 1) (2 * M) 0 (Nat.pos_pow_of_pos (t + 1) (by norm_num)) (by omega)]
  omega

/-!
## Python list access lemmas
-/

theorem pyIdx_nat {len n : Nat} (h : n < len) : pyIdx len (n : Int) = some n := by
  unfold pyIdx
  rw [if_pos ⟨by positivity, by exact_mod_cast h⟩, Int.toNat_natCast]

theorem pyIdx_nat_oob {len n : Nat} (h : len ≤ n) : pyIdx len (n : Int) = none := by
  unfold pyIdx
  rw [if_neg (by omega), if_neg (by omega)]

theorem pyGet_ok {α : Type} {l : List α} {n : Nat} {a : α} (ha : l[n]? = some a) :
    pyGet l (n : Int) = .ok a := by
  have h : n < l.length := by
    by_contra hc
    rw [List.getElem?_eq_none (by omega)] at ha
    exact (Option.some_ne_none a ha.symm).elim
  simp [pyGet, pyIdx_nat h, ha]

theorem pyGet_oob {α : Type} (l : List α) (n : Nat) (h : l.length ≤ n) :
    pyGet l (n : Int) = .error .indexError := by
  unfold pyGet
  rw [pyIdx_nat_oob h]

theorem pySet_nat {α : Type} (l : List α) (n : Nat) (h : n < l.length) (v : α) :
    pySet l (n : Int) v = .ok (l.set n v) := by
  unfold pySet
  rw [pyIdx_nat h]

theorem pySet_oob {α : Type} (l : List α) (n : Nat) (h : l.length ≤ n) (v : α) :
    pySet l (n : Int) v = .error .indexError := by
  unfold pySet
  rw [pyIdx_nat_oob h]

theorem size_def (tree : List (Option T)) : size tree = tree.length / 2 := by
  simp [size, Nat.shiftRight_eq_div_pow]

/-!
## Specification-layer lemmas
-/

theorem v2_pow_odd (t m : Nat) : v2 (2 ^ t * (2 * m + 1)) = t := by
  induction t with
  | zero =>
    rw [v2]
    rw [dif_neg (by omega)]
    rw [if_pos (by omega)]
  | succ t ih =>
    rw [v2]
    rw [dif_neg (by positivity)]
    have hrw : 2 ^ (t + 1) * (2 * m + 1) = 2 * (2 ^ t * (2 * m + 1)) := by ring
    have hmod : 2 ^ (t + 1) * (2 * m + 1) % 2 = 0 := by rw [hrw]; omega
    rw [if_neg (by omega)]
    have hdiv : 2 ^ (t + 1) * (2 * m + 1) / 2 = 2 ^ t * (2 * m + 1) := by rw [hrw]; omega
    rw [hdiv, ih]
    omega

theorem coord_decomp : ∀ c : Nat, c ≠ 0 → ∃ t m, c = 2 ^ t * (2 * m + 1) := by
  intro c
  induction c using Nat.strong_induction_on with
  | _ c ih =>
    intro hc
    rcases Nat.mod_two_eq_zero_or_one c with h | h
    · obtain ⟨t, m, he⟩ := ih (c / 2) (by omega) (by omega)
      refine ⟨t + 1, m, ?_⟩
      calc c = 2 * (c / 2) := by omega
      _ = 2 * (2 ^ t * (2 * m + 1)) := by rw [he]
      _ = 2 ^ (t + 1) * (2 * m + 1) := by ring
    · exact ⟨0, c / 2, by omega⟩

theorem coord_unique {t m t' m' : Nat} (h : 2 ^ t * (2 * m + 1) = 2 ^ t' * (2 * m' + 1)) :
    t = t' ∧ m = m' := by
  have ht : t = t' := by
    have := v2_pow_odd t m
    rw [h, v2_pow_odd] at this
    omega
  subst ht
  refine ⟨rfl, ?_⟩
  have := Nat.eq_of_mul_eq_mul_left (Nat.pos_pow_of_pos t (by norm_num)) h
  omega

theorem specTree_length (f : T → T → T) (L : List T) :
    (specTree f L).length = 2 * L.length := by
  simp [specTree]

theorem specTree_get (f : T → T → T) (L : List T) (t m : Nat)
    (h : 2 ^ t * (2 * m + 1) < 2 * L.length) :
    (specTree f L)[2 ^ t * (2 * m + 1)]? = some (nodeVal f L t m) := by
  rw [specTree, List.getElem?_map, List.getElem?_range h]
  rw [Option.map_some']
  rw [slotSpec, if_neg (by positivity), v2_pow_odd]
  rw [Nat.shiftRight_eq_div_pow,
    Nat.mul_div_cancel_left _ (Nat.pos_pow_of_pos t (by norm_num))]
  have : (2 * m + 1) / 2 = m := by omega
  rw [this]

theorem specTree_get_zero (f : T → T → T) (L : List T) (h : 0 < L.length) :
    (specTree f L)[(0 : Nat)]? = some none := by
  rw [specTree, List.getElem?_map, List.getElem?_range (by omega)]
  rw [Option.map_some']
  rw [slotSpec, if_pos rfl]

set_option linter.unnecessarySeqFocus false in
theorem nodeVal_isSome (f : T → T → T) (L : List T) :
    ∀ t m, (nodeVal f L t m).isSome ↔ 2 ^ t * (m + 1) ≤ L.length := by
  intro t
  induction t with
  | zero =>
    intro m
    rw [nodeVal]
    simp only [pow_zero, one_mul]
    constructor
    · intro hs
      by_contra hc
      rw [List.getElem?_eq_none (by omega)] at hs
      simp at hs
    · intro hle
      rw [List.getElem?_eq_getElem (by omega)]
      simp
  | succ t ih =>
    intro m
    have key : 2 ^ (t + 1) * (m + 1) = 2 ^ t * (2 * m + 1 + 1) := by ring
    have mono : 2 ^ t * (2 * m + 1) ≤ 2 ^ t * (2 * m + 1 + 1) :=
      Nat.mul_le_mul_left _ (by omega)
    have h1 := ih (2 * m)
    have h2 := ih (2 * m + 1)
    rw [nodeVal, key]
    constructor
    · intro hs
      apply h2.mp
      cases hA : nodeVal f L t (2 * m) <;> cases hB : nodeVal f L t (2 * m + 1) <;>
        rw [hA, hB] at hs <;> simp at hs <;> simp [hB]
    · intro hle
      have c2 : (nodeVal f L t (2 * m + 1)).isSome := h2.mpr hle
      have c1 : (nodeVal f L t (2 * m)).isSome := h1.mpr (by omega)
      obtain ⟨y, hy⟩ := Option.isSome_iff_exists.mp c2
      obtain ⟨x, hx⟩ := Option.isSome_iff_exists.mp c1
      rw [hx, hy]
      simp

theorem nodeVal_none_of_incomplete (f : T → T → T) (L : List T) (t m : Nat)
    (h : L.length < 2 ^ t * (m + 1)) : nodeVal f L t m = none := by
  cases hv : nodeVal f L t m with
  | none => rfl
  | some x =>
    have := (nodeVal_isSome f L t m).mp (by rw [hv]; simp)
    omega

theorem nodeVal_some_of_complete (f : T → T → T) (L : List T) (t m : Nat)
    (h : 2 ^ t * (m + 1) ≤ L.length) : ∃ x, nodeVal f L t m = some x := by
  have := (nodeVal_isSome f L t m).mpr h
  exact Option.isSome_iff_exists.mp this

theorem nodeVal_set_ne (f : T → T → T) (L : List T) (pos : Nat) (v : T) :
    ∀ t m, m ≠ pos / 2 ^ t → nodeVal f (L.set pos v) t m = nodeVal f L t m := by
  intro t
  induction t with
  | zero =>
    intro m hm
    rw [nodeVal, nodeVal]
    exact List.getElem?_set_ne (by simpa using fun h => hm (by omega))
  | succ t ih =>
    intro m hm
    have hd : pos / 2 ^ (t + 1) = pos / 2 ^ t / 2 := by
      rw [Nat.div_div_eq_div_mul, pow_succ]
    have hne1 : 2 * m ≠ pos / 2 ^ t := by omega
    have hne2 : 2 * m + 1 ≠ pos / 2 ^ t := by omega
    rw [nodeVal, nodeVal, ih _ hne1, ih _ hne2]

theorem nodeVal_append_ne (f : T → T → T) (L : List T) (v : T) :
    ∀ t m, m ≠ L.length / 2 ^ t → nodeVal f (L ++ [v]) t m = nodeVal f L t m := by
  intro t
  induction t with
  | zero =>
    intro m hm
    rw [nodeVal, nodeVal]
    simp only [pow_zero, Nat.div_one] at hm
    rw [List.getElem?_append]
    split
    · rfl
    · rename_i hc
      rw [List.getElem?_eq_none (show ([v] : List T).length ≤ m - L.length by simp; omega),
        List.getElem?_eq_none (by omega)]
  | succ t ih =>
    intro m hm
    have hd : L.length / 2 ^ (t + 1) = L.length / 2 ^ t / 2 := by
      rw [Nat.div_div_eq_div_mul, pow_succ]
    have hne1 : 2 * m ≠ L.length / 2 ^ t := by omega
    have hne2 : 2 * m + 1 ≠ L.length / 2 ^ t := by omega
    rw [nodeVal, nodeVal, ih _ hne1, ih _ hne2]

theorem anc_gt (pos t : Nat) : pos < 2 ^ t * (pos / 2 ^ t + 1) := by
  have h1 := Nat.div_add_mod pos (2 ^ t)
  have h2 : pos % 2 ^ t < 2 ^ t := Nat.mod_lt _ (Nat.pos_pow_of_pos t (by norm_num))
  have h3 : 2 ^ t * (pos / 2 ^ t + 1) = 2 ^ t * (pos / 2 ^ t) + 2 ^ t := by ring
  omega

theorem anc_le (pos t : Nat) : 2 ^ t * (pos / 2 ^ t) ≤ pos := by
  have h1 := Nat.div_add_mod pos (2 ^ t)
  omega

/-- A complete ancestor has complete descendants on the chain of `pos`. -/
theorem anc_complete_mono (pos n t s : Nat) (hts : t ≤ s)
    (hs : 2 ^ s * (pos / 2 ^ s + 1) ≤ n) : 2 ^ t * (pos / 2 ^ t + 1) ≤ n := by
  have key : 2 ^ t * (pos / 2 ^ t + 1) ≤ 2 ^ s * (pos / 2 ^ s + 1) := by
    have hdvd : 2 ^ s = 2 ^ t * 2 ^ (s - t) := by
      rw [← pow_add]
      congr 1
      omega
    have hpos : pos < 2 ^ s * (pos / 2 ^ s + 1) := anc_gt pos s
    have hlt : pos / 2 ^ t < 2 ^ (s - t) * (pos / 2 ^ s + 1) := by
      rw [Nat.div_lt_iff_lt_mul (Nat.pos_pow_of_pos t (by norm_num))]
      calc pos < 2 ^ s * (pos / 2 ^ s + 1) := hpos
      _ = 2 ^ (s - t) * (pos / 2 ^ s + 1) * 2 ^ t := by rw [hdvd]; ring
    calc 2 ^ t * (pos / 2 ^ t + 1) ≤ 2 ^ t * (2 ^ (s - t) * (pos / 2 ^ s + 1)) :=
      Nat.mul_le_mul_left _ (by omega)
    _ = 2 ^ s * (pos / 2 ^ s + 1) := by rw [hdvd]; ring
  omega

/-!
## Fold algebra
-/

theorem foldl_assoc_law (f : T → T → T) (hf : ∀ a b c, f (f a b) c = f a (f b c)) :
    ∀ (l : List T) (x y : T), l.foldl f (f x y) = f x (l.foldl f y) := by
  intro l
  induction l with
  | nil => intro x y; rfl
  | cons z zs ih =>
    intro x y
    rw [List.foldl_cons, List.foldl_cons, hf, ih]

theorem sliceFold_append (f : T → T → T) (hf : ∀ a b c, f (f a b) c = f a (f b c))
    (A B : List T) :
    sliceFold f (A ++ B) = omerge f (sliceFold f A) (sliceFold f B) := by
  cases A with
  | nil => cases B <;> rfl
  | cons a as =>
    cases B with
    | nil => simp [sliceFold, omerge]
    | cons b bs =>
      show sliceFold f (a :: (as ++ b :: bs)) = _
      rw [sliceFold, sliceFold, sliceFold, omerge]
      rw [List.foldl_append, List.foldl_cons]
      rw [foldl_assoc_law f hf]

theorem segFold_self (f : T → T → T) (L : List T) (a : Nat) : segFold f L a a = none := by
  simp [segFold, sliceFold]

theorem segFold_glue (f : T → T → T) (hf : ∀ a b c, f (f a b) c = f a (f b c))
    (L : List T) (a b c : Nat) (hab : a ≤ b) (hbc : b ≤ c) :
    omerge f (segFold f L a b) (segFold f L b c) = segFold f L a c := by
  unfold segFold
  rw [← sliceFold_append f hf]
  congr 1
  have hsplit : c - a = (b - a) + (c - b) := by omega
  rw [hsplit, List.take_add]
  congr 2
  rw [List.drop_drop]
  congr 1
  omega

theorem segFold_one (f : T → T → T) (L : List T) (m : Nat) (h : m < L.length) :
    segFold f L m (m + 1) = L[m]? := by
  unfold segFold
  rw [List.drop_eq_getElem_cons h]
  have : m + 1 - m = 1 := by omega
  rw [this, List.take_succ_cons, List.take_zero, sliceFold, List.getElem?_eq_getElem h]
  rfl

theorem segFold_some (f : T → T → T) (L : List T) (a b : Nat) (hab : a < b)
    (hb : b ≤ L.length) : ∃ x, segFold f L a b = some x := by
  unfold segFold
  have hlen : ((L.drop a).take (b - a)).length = b - a := by
    simp
    omega
  cases he : (L.drop a).take (b - a) with
  | nil => rw [he] at hlen; simp at hlen; omega
  | cons x xs => exact ⟨xs.foldl f x, rfl⟩

theorem nodeVal_eq_segFold (f : T → T → T) (hf : ∀ a b c, f (f a b) c = f a (f b c))
    (L : List T) : ∀ t m, 2 ^ t * (m + 1) ≤ L.length →
    nodeVal f L t m = segFold f L (2 ^ t * m) (2 ^ t * (m + 1)) := by
  intro t
  induction t with
  | zero =>
    intro m h
    rw [nodeVal]
    simp only [pow_zero, one_mul] at *
    rw [segFold_one f L m (by omega)]
  | succ t ih =>
    intro m h
    have hmid : 2 ^ (t + 1) * (m + 1) = 2 ^ t * (2 * m + 1 + 1) := by ring
    have hc2 : 2 ^ t * (2 * m + 1 + 1) ≤ L.length := by omega
    have hc1 : 2 ^ t * (2 * m + 1) ≤ L.length := by
      have : 2 ^ t * (2 * m + 1) ≤ 2 ^ t * (2 * m + 1 + 1) :=
        Nat.mul_le_mul_left _ (by omega)
      omega
    obtain ⟨x, hx⟩ := nodeVal_some_of_complete f L t (2 * m) hc1
    obtain ⟨y, hy⟩ := nodeVal_some_of_complete f L t (2 * m + 1) hc2
    rw [nodeVal, hx, hy]
    have e1 := ih (2 * m) hc1
    have e2 := ih (2 * m + 1) hc2
    rw [hx] at e1
    rw [hy] at e2
    have hglue := segFold_glue f hf L (2 ^ t * (2 * m)) (2 ^ t * (2 * m + 1))
      (2 ^ t * (2 * m + 1 + 1)) (Nat.mul_le_mul_left _ (by omega))
      (Nat.mul_le_mul_left _ (by omega))
    rw [← e1, ← e2] at hglue
    rw [omerge] at hglue
    rw [show 2 ^ (t + 1) * m = 2 ^ t * (2 * m) by ring, hmid, ← hglue]

/-!
## The update climb

`ancCoord pos t` is the slot coordinate of the ancestor of leaf `pos` at
level `t`.  `ClimbInv` is the invariant of the climb of `__setitem__` on the
main path: entering the iteration of level `t`, every slot other than the
ancestors of `pos` strictly above level `t` already holds its specified
content for the new logical contents `L'`, the stale strict ancestors that
are incomplete are still empty, and the ancestor at the current level is
complete. -/
theorem ancCoord_zero (pos : Nat) : ancCoord pos 0 = 2 * pos + 1 := by
  unfold ancCoord
  simp

theorem ancCoord_succ (pos t : Nat) :
    ancCoord pos (t + 1) = 2 ^ (t + 1) * (2 * (pos / 2 ^ t / 2) + 1) := by
  unfold ancCoord
  rw [Nat.div_div_eq_div_mul, pow_succ]

theorem node_ne_ancCoord {t m : Nat} (pos s : Nat) (hst : t ≠ s) :
    2 ^ t * (2 * m + 1) ≠ ancCoord pos s := by
  intro h
  unfold ancCoord at h
  exact hst (coord_unique h).1

/-- On exit of the climb at level `t` with all strict ancestors incomplete,
the buffer holds exactly the specified contents. -/
theorem climbInv_exit (f : T → T → T) (L' : List T) (pos t : Nat)
    (tree : List (Option T)) (hInv : ClimbInv f L' pos t tree)
    (hstale : L'.length < 2 ^ (t + 1) * (pos / 2 ^ (t + 1) + 1)) :
    tree = specTree f L' := by
  obtain ⟨hlen, hH, hS, _⟩ := hInv
  apply List.ext_getElem?
  intro c
  rcases le_or_lt (2 * L'.length) c with hc | hc
  · rw [List.getElem?_eq_none (by omega), List.getElem?_eq_none (by rw [specTree_length]; omega)]
  · by_cases hanc : ∃ s, t + 1 ≤ s ∧ c = ancCoord pos s
    · obtain ⟨s, hs, rfl⟩ := hanc
      have hinc : L'.length < 2 ^ s * (pos / 2 ^ s + 1) := by
        by_contra hcomp
        exact absurd (anc_complete_mono pos L'.length (t + 1) s hs (by omega)) (by omega)
      rw [hS s hs hc hinc]
      unfold ancCoord at hc ⊢
      rw [specTree_get f L' s (pos / 2 ^ s) hc]
      rw [nodeVal_none_of_incomplete f L' s (pos / 2 ^ s) hinc]
    · push_neg at hanc
      exact hH c hc hanc

/-- A non-ancestor slot already holds its specified node value. -/
theorem climbInv_read (f : T → T → T) (L' : List T) (pos t : Nat)
    (tree : List (Option T)) (hInv : ClimbInv f L' pos t tree) (u m : Nat)
    (hlt : 2 ^ u * (2 * m + 1) < 2 * L'.length)
    (hne : ∀ s, t + 1 ≤ s → 2 ^ u * (2 * m + 1) ≠ ancCoord pos s) :
    tree[2 ^ u * (2 * m + 1)]? = some (nodeVal f L' u m) := by
  obtain ⟨hlen, hH, hS, _⟩ := hInv
  rw [hH _ hlt hne, specTree_get f L' u m hlt]

/-- Writing the (complete) parent of the current ancestor re-establishes the
climb invariant one level up. -/
theorem climbInv_advance (f : T → T → T) (L' : List T) (pos t : Nat)
    (tree : List (Option T)) (x y : T)
    (hInv : ClimbInv f L' pos t tree)
    (hx : nodeVal f L' t (2 * (pos / 2 ^ (t + 1))) = some x)
    (hy : nodeVal f L' t (2 * (pos / 2 ^ (t + 1)) + 1) = some y)
    (hplt : 2 ^ (t + 1) * (2 * (pos / 2 ^ (t + 1)) + 1) < 2 * L'.length) :
    ClimbInv f L' pos (t + 1)
      (tree.set (2 ^ (t + 1) * (2 * (pos / 2 ^ (t + 1)) + 1)) (some (f x y))) := by
  obtain ⟨hlen, hH, hS, hHC⟩ := hInv
  have hanc1 : ancCoord pos (t + 1) = 2 ^ (t + 1) * (2 * (pos / 2 ^ (t + 1)) + 1) := rfl
  have hcomp : 2 ^ (t + 1) * (pos / 2 ^ (t + 1) + 1) ≤ L'.length := by
    have := (nodeVal_isSome f L' t (2 * (pos / 2 ^ (t + 1)) + 1)).mp (by rw [hy]; simp)
    have e : 2 ^ t * (2 * (pos / 2 ^ (t + 1)) + 1 + 1) = 2 ^ (t + 1) * (pos / 2 ^ (t + 1) + 1) := by
      ring
    omega
  refine ⟨by rw [List.length_set]; exact hlen, ?_, ?_, hcomp⟩
  · intro c hc hne
    by_cases hcp : c = 2 ^ (t + 1) * (2 * (pos / 2 ^ (t + 1)) + 1)
    · subst hcp
      rw [List.getElem?_set_self (by omega)]
      rw [specTree_get f L' (t + 1) (pos / 2 ^ (t + 1)) hplt]
      rw [nodeVal, hx, hy]
    · rw [List.getElem?_set_ne (by omega)]
      apply hH c hc
      intro s hs
      rcases Nat.lt_or_ge s (t + 2) with hs2 | hs2
      · have : s = t + 1 := by omega
        subst this
        rw [hanc1]
        exact hcp
      · exact hne s hs2
  · intro s hs hslt hsinc
    have hne : ancCoord pos s ≠ 2 ^ (t + 1) * (2 * (pos / 2 ^ (t + 1)) + 1) := by
      rw [← hanc1]
      intro h
      unfold ancCoord at h
      have := (coord_unique h).1
      omega
    rw [List.getElem?_set_ne (by omega)]
    exact hS s (by omega) hslt hsinc

theorem lor_pow_ge (a : Nat) (s : Nat) : 2 ^ s ≤ a ||| 2 ^ s := by
  have h : (a ||| 2 ^ s).testBit s = true := by
    rw [Nat.testBit_or, Nat.testBit_two_pow_self]
    simp
  have := Nat.testBit_implies_ge h
  omega

/-- Master lemma for the `__setitem__` climb on the main path: starting from
the climb invariant, the loop rewrites the buffer to exactly the specified
contents for the new logical contents `L'`, and it either completes or stops
with the `TypeError` of combining with an absent sibling — never any other
error. -/
theorem setLoop_master (f : T → T → T) (L' : List T) (pos : Nat)
    (hpos : pos < L'.length) :
    ∀ F t tree, 2 * L'.length ≤ F + 2 ^ t →
      ClimbInv f L' pos t tree →
      ∃ e, setLoop f (F + 1) tree ((ancCoord pos t : Nat) : Int) ((2 ^ t : Nat) : Int)
          = (specTree f L', e) ∧
        (e = none ∨ (e = some PyErr.typeError ∧
          ∃ u, 2 ^ u * (2 * (pos / 2 ^ u) + 1) + 2 ^ (u + 1) < 2 * L'.length ∧
            L'.length < 2 ^ u * (pos / 2 ^ u + 2))) := by
  intro F
  induction F with
  | zero =>
    intro t tree hfuel hInv
    have hlen := hInv.1
    have hge := lor_pow_ge (ancCoord pos t) (t + 1)
    have hpow : (2:Nat) ^ (t + 1) = 2 ^ t + 2 ^ t := by ring
    rw [setLoop, pshl_pow, por_cast]
    rw [if_neg (by omega)]
    refine ⟨none, ?_, Or.inl rfl⟩
    have hstale : L'.length < 2 ^ (t + 1) * (pos / 2 ^ (t + 1) + 1) := by
      have h2 : 2 ^ (t + 1) * 1 ≤ 2 ^ (t + 1) * (pos / 2 ^ (t + 1) + 1) :=
        Nat.mul_le_mul_left _ (Nat.succ_le_succ (Nat.zero_le _))
      have h3 : L'.length < 2 ^ (t + 1) * 1 := by omega
      exact lt_of_lt_of_le h3 h2
    rw [climbInv_exit f L' pos t tree hInv hstale]
  | succ F ih =>
    intro t tree hfuel hInv
    have hInvKeep := hInv
    obtain ⟨hlen, hH, hS, hHC⟩ := hInv
    have hpow : (2:Nat) ^ (t + 1) = 2 ^ t + 2 ^ t := by ring
    have hkpos : (1:Nat) ≤ 2 ^ t := Nat.one_le_two_pow
    have hM2 : pos / 2 ^ (t + 1) = pos / 2 ^ t / 2 := by
      rw [Nat.div_div_eq_div_mul, pow_succ]
    rcases Nat.mod_two_eq_zero_or_one (pos / 2 ^ t) with hm | hm
    · -- the current ancestor is a left child
      obtain ⟨M, hMm⟩ : ∃ M, pos / 2 ^ t = 2 * M := ⟨pos / 2 ^ t / 2, by omega⟩
      have hMM : pos / 2 ^ (t + 1) = M := by omega
      have hanc : ancCoord pos t = 2 ^ t * (2 * (2 * M) + 1) := by
        unfold ancCoord; rw [hMm]
      have hancp : ancCoord pos (t + 1) = 2 ^ (t + 1) * (2 * M + 1) := by
        unfold ancCoord; rw [hMM]
      rw [setLoop, hanc]
      simp only [pshl_pow, pandnot_cast, por_cast]
      rw [node_or2k_even t M, node_ldiff2k_even t M, node_parent_even t M]
      have hr : 2 ^ t * (2 * (2 * M) + 1) + 2 ^ (t + 1) = 2 ^ t * (2 * (2 * M + 1) + 1) := by
        ring
      by_cases hguard : 2 ^ t * (2 * (2 * M) + 1) + 2 ^ (t + 1) < 2 * L'.length
      · rw [if_pos (by omega)]
        -- the left child is the current (complete) ancestor
        have hL : tree[2 ^ t * (2 * (2 * M) + 1)]? = some (nodeVal f L' t (2 * M)) := by
          apply climbInv_read f L' pos t tree hInvKeep t (2 * M)
          · omega
          · intro s hs
            exact node_ne_ancCoord pos s (by omega)
        have hR : tree[2 ^ t * (2 * (2 * M + 1) + 1)]? = some (nodeVal f L' t (2 * M + 1)) := by
          apply climbInv_read f L' pos t tree hInvKeep t (2 * M + 1)
          · omega
          · intro s hs
            exact node_ne_ancCoord pos s (by omega)
        have hxc : 2 ^ t * (2 * M + 1) ≤ L'.length := by
          rw [hMm] at hHC
          exact hHC
        obtain ⟨x, hx⟩ := nodeVal_some_of_complete f L' t (2 * M) (by rw [hMm] at hHC; omega)
        cases hy : nodeVal f L' t (2 * M + 1) with
        | none =>
          -- right sibling inside the buffer but incomplete: TypeError
          have hinc : L'.length < 2 ^ t * (2 * M + 1 + 1) := by
            by_contra hcomp
            obtain ⟨y, hy2⟩ := nodeVal_some_of_complete f L' t (2 * M + 1) (by omega)
            rw [hy2] at hy
            exact Option.noConfusion hy
          have hgetL : pyGet tree ((2 ^ t * (2 * (2 * M) + 1) : Nat) : Int)
              = .ok (some x) := pyGet_ok (by rw [hL, hx])
          have hgetR : pyGet tree ((2 ^ t * (2 * (2 * M + 1) + 1) : Nat) : Int)
              = .ok none := pyGet_ok (by rw [hR, hy])
          rw [hr]
          simp only [hgetL, hgetR]
          have hwit1 : 2 ^ t * (2 * (pos / 2 ^ t) + 1) + 2 ^ (t + 1) < 2 * L'.length := by
            rw [hMm]; omega
          have hwit2 : L'.length < 2 ^ t * (pos / 2 ^ t + 2) := by
            rw [hMm]
            have e : 2 ^ t * (2 * M + 2) = 2 ^ t * (2 * M + 1 + 1) := by ring
            omega
          refine ⟨some PyErr.typeError, ?_, Or.inr ⟨rfl, t, hwit1, hwit2⟩⟩
          have hstale : L'.length < 2 ^ (t + 1) * (pos / 2 ^ (t + 1) + 1) := by
            rw [hMM]
            have : 2 ^ (t + 1) * (M + 1) = 2 ^ t * (2 * M + 1 + 1) := by ring
            omega
          rw [climbInv_exit f L' pos t tree hInvKeep hstale]
        | some y =>
          have hgetL : pyGet tree ((2 ^ t * (2 * (2 * M) + 1) : Nat) : Int)
              = .ok (some x) := pyGet_ok (by rw [hL, hx])
          have hgetR : pyGet tree ((2 ^ t * (2 * (2 * M + 1) + 1) : Nat) : Int)
              = .ok (some y) := pyGet_ok (by rw [hR, hy])
          rw [hr]
          simp only [hgetL, hgetR]
          have hplt : 2 ^ (t + 1) * (2 * M + 1) < 2 * L'.length := by
            have : 2 ^ (t + 1) * (2 * M + 1) < 2 ^ t * (2 * (2 * M + 1) + 1) := by
              have e : 2 ^ (t + 1) * (2 * M + 1) = 2 ^ t * (4 * M + 2) := by ring
              have e2 : 2 ^ t * (2 * (2 * M + 1) + 1) = 2 ^ t * (4 * M + 3) := by ring
              rw [e, e2]
              exact (Nat.mul_lt_mul_left (by omega)).mpr (by omega)
            omega
          have hset : pySet tree ((2 ^ (t + 1) * (2 * M + 1) : Nat) : Int) (some (f x y))
              = .ok (tree.set (2 ^ (t + 1) * (2 * M + 1)) (some (f x y))) :=
            pySet_nat tree _ (by omega) _
          simp only [hset]
          have hInv2 : ClimbInv f L' pos (t + 1)
              (tree.set (2 ^ (t + 1) * (2 * M + 1)) (some (f x y))) := by
            have := climbInv_advance f L' pos t tree x y hInvKeep
              (by rw [hMM]; exact hx) (by rw [hMM]; exact hy) (by rw [hMM]; exact hplt)
            rw [hMM] at this
            exact this
          have hfuel2 : 2 * L'.length ≤ F + 2 ^ (t + 1) := by omega
          have := ih (t + 1) (tree.set (2 ^ (t + 1) * (2 * M + 1)) (some (f x y)))
            hfuel2 hInv2
          rw [hancp] at this
          exact this
      · rw [if_neg (by omega)]
        refine ⟨none, ?_, Or.inl rfl⟩
        have hstale : L'.length < 2 ^ (t + 1) * (pos / 2 ^ (t + 1) + 1) := by
          rw [hMM]
          by_contra hcomp
          push_neg at hcomp
          have h1 : 2 ^ t * (4 * M + 4) = 2 * (2 ^ (t + 1) * (M + 1)) := by ring
          have h2 : 2 ^ t * (2 * (2 * M) + 1) + 2 ^ (t + 1) = 2 ^ t * (4 * M + 3) := by ring
          have h3 : 2 ^ t * (4 * M + 3) < 2 ^ t * (4 * M + 4) :=
            (Nat.mul_lt_mul_left (by omega)).mpr (by omega)
          omega
        rw [climbInv_exit f L' pos t tree hInvKeep hstale]
    · -- the current ancestor is a right child: the guard always holds
      obtain ⟨M, hMm⟩ : ∃ M, pos / 2 ^ t = 2 * M + 1 := ⟨pos / 2 ^ t / 2, by omega⟩
      have hMM : pos / 2 ^ (t + 1) = M := by omega
      have hanc : ancCoord pos t = 2 ^ t * (2 * (2 * M + 1) + 1) := by
        unfold ancCoord; rw [hMm]
      have hancp : ancCoord pos (t + 1) = 2 ^ (t + 1) * (2 * M + 1) := by
        unfold ancCoord; rw [hMM]
      have hHC' : 2 ^ t * (2 * M + 1 + 1) ≤ L'.length := by
        rw [hMm] at hHC
        have e : 2 ^ t * (2 * M + 1 + 1) = 2 ^ t * (2 * M + 1 + 1) := rfl
        omega
      rw [setLoop, hanc]
      simp only [pshl_pow, pandnot_cast, por_cast]
      rw [node_or2k_odd t M, node_ldiff2k_odd t M, node_parent_odd t M]
      have hanclt : 2 ^ t * (2 * (2 * M + 1) + 1) < 2 * L'.length := by
        have e1 : 2 ^ t * (2 * (2 * M + 1) + 1) = 2 ^ t * (4 * M + 3) := by ring
        have e2 : 2 * (2 ^ t * (2 * M + 1 + 1)) = 2 ^ t * (4 * M + 4) := by ring
        have h3 : 2 ^ t * (4 * M + 3) < 2 ^ t * (4 * M + 4) :=
          (Nat.mul_lt_mul_left (by omega)).mpr (by omega)
        omega
      rw [if_pos (by omega)]
      have hL : tree[2 ^ t * (2 * (2 * M) + 1)]? = some (nodeVal f L' t (2 * M)) := by
        apply climbInv_read f L' pos t tree hInvKeep t (2 * M)
        · have h3 : 2 ^ t * (2 * (2 * M) + 1) < 2 ^ t * (2 * (2 * M + 1) + 1) :=
            (Nat.mul_lt_mul_left (by omega)).mpr (by omega)
          omega
        · intro s hs
          exact node_ne_ancCoord pos s (by omega)
      have hR : tree[2 ^ t * (2 * (2 * M + 1) + 1)]? = some (nodeVal f L' t (2 * M + 1)) := by
        apply climbInv_read f L' pos t tree hInvKeep t (2 * M + 1)
        · omega
        · intro s hs
          exact node_ne_ancCoord pos s (by omega)
      obtain ⟨x, hx⟩ := nodeVal_some_of_complete f L' t (2 * M)
        (by have : (2:Nat) ^ t * (2 * M + 1) ≤ 2 ^ t * (2 * M + 1 + 1) :=
              Nat.mul_le_mul_left _ (by omega)
            omega)
      obtain ⟨y, hy⟩ := nodeVal_some_of_complete f L' t (2 * M + 1) hHC'
      have hgetL : pyGet tree ((2 ^ t * (2 * (2 * M) + 1) : Nat) : Int)
          = .ok (some x) := pyGet_ok (by rw [hL, hx])
      have hgetR : pyGet tree ((2 ^ t * (2 * (2 * M + 1) + 1) : Nat) : Int)
          = .ok (some y) := pyGet_ok (by rw [hR, hy])
      simp only [hgetL, hgetR]
      have hplt : 2 ^ (t + 1) * (2 * M + 1) < 2 * L'.length := by
        have e : 2 ^ (t + 1) * (2 * M + 1) = 2 ^ t * (4 * M + 2) := by ring
        have e2 : 2 ^ t * (2 * (2 * M + 1) + 1) = 2 ^ t * (4 * M + 3) := by ring
        have h3 : 2 ^ t * (4 * M + 2) < 2 ^ t * (4 * M + 3) :=
          (Nat.mul_lt_mul_left (by omega)).mpr (by omega)
        omega
      have hset : pySet tree ((2 ^ (t + 1) * (2 * M + 1) : Nat) : Int) (some (f x y))
          = .ok (tree.set (2 ^ (t + 1) * (2 * M + 1)) (some (f x y))) :=
        pySet_nat tree _ (by omega) _
      simp only [hset]
      have hInv2 : ClimbInv f L' pos (t + 1)
          (tree.set (2 ^ (t + 1) * (2 * M + 1)) (some (f x y))) := by
        have := climbInv_advance f L' pos t tree x y hInvKeep
          (by rw [hMM]; exact hx) (by rw [hMM]; exact hy) (by rw [hMM]; exact hplt)
        rw [hMM] at this
        exact this
      have hfuel2 : 2 * L'.length ≤ F + 2 ^ (t + 1) := by omega
      have := ih (t + 1) (tree.set (2 ^ (t + 1) * (2 * M + 1)) (some (f x y)))
        hfuel2 hInv2
      rw [hancp] at this
      exact this

theorem specTree_get_leaf (f : T → T → T) (L : List T) (m : Nat)
    (h : 2 * m + 1 < 2 * L.length) : (specTree f L)[2 * m + 1]? = some (L[m]?) := by
  have h0 : (2:Nat) ^ 0 * (2 * m + 1) = 2 * m + 1 := by norm_num
  have := specTree_get f L 0 m (by omega)
  rw [h0] at this
  rw [this, nodeVal]

/-- The leaves not equal to `pos` and the internal slots that are not
ancestors of `pos` have the same specified value before and after a point
update. -/
theorem specTree_set_ne (f : T → T → T) (L : List T) (pos : Nat) (v : T)
    (_hpos : pos < L.length) (c : Nat) (hc : c < 2 * L.length)
    (hcl : c ≠ 2 * pos + 1) (hanc : ∀ s, 1 ≤ s → c ≠ ancCoord pos s) :
    (specTree f (L.set pos v))[c]? = (specTree f L)[c]? := by
  have hlen : (L.set pos v).length = L.length := List.length_set L pos v
  rcases Nat.eq_zero_or_pos c with hc0 | hc0
  · subst hc0
    rw [specTree_get_zero f _ (by omega), specTree_get_zero f L (by omega)]
  · obtain ⟨u, m, rfl⟩ := coord_decomp c (by omega)
    rw [specTree_get f _ u m (by omega), specTree_get f L u m (by omega)]
    have hm : m ≠ pos / 2 ^ u := by
      cases u with
      | zero =>
        intro hcontra
        simp at hcontra
        exact hcl (by omega)
      | succ u' =>
        intro hcontra
        exact hanc (u' + 1) (by omega) (by unfold ancCoord; rw [hcontra])
    rw [nodeVal_set_ne f L pos v u m hm]

/-- `__setitem__` on a specified state with an in-range index produces
exactly the specified state of the updated contents; it either completes or
raises the combine-with-`None` `TypeError`. -/
theorem setitem_spec (f : T → T → T) (L : List T) (pos : Nat) (v : T)
    (hpos : pos < L.length) :
    ∃ e, setitem f (specTree f L) ((pos : Nat) : Int) v
        = (specTree f (L.set pos v), e) ∧ (e = none ∨ e = some PyErr.typeError) := by
  have hlenset : (L.set pos v).length = L.length := List.length_set L pos v
  have hstart : ClimbInv f (L.set pos v) pos 0 ((specTree f L).set (2 * pos + 1) (some v)) := by
    refine ⟨?_, ?_, ?_, ?_⟩
    · rw [List.length_set, specTree_length, hlenset]
    · intro c hc hne
      rw [hlenset] at hc
      by_cases hcl : c = 2 * pos + 1
      · subst hcl
        rw [List.getElem?_set_self (by rw [specTree_length]; omega)]
        rw [specTree_get_leaf f _ pos (by omega)]
        rw [List.getElem?_set_self (by omega)]
      · rw [List.getElem?_set_ne (by omega)]
        rw [specTree_set_ne f L pos v hpos c hc hcl (fun s hs => hne s (by omega))]
    · intro s hs hslt hsinc
      rw [hlenset] at hslt
      rw [hlenset] at hsinc
      have hne : ancCoord pos s ≠ 2 * pos + 1 := by
        have := node_ne_ancCoord (t := 0) (m := pos) pos s (by omega)
        intro h
        apply this
        rw [← h]
        norm_num
      rw [List.getElem?_set_ne (by omega)]
      unfold ancCoord at hslt ⊢
      rw [specTree_get f L s (pos / 2 ^ s) hslt]
      rw [nodeVal_none_of_incomplete f L s (pos / 2 ^ s) hsinc]
    · simp only [pow_zero, one_mul, Nat.div_one, hlenset]
      omega
  have hmast := setLoop_master f (L.set pos v) pos (by omega) (2 * L.length) 0
    ((specTree f L).set (2 * pos + 1) (some v))
    (by rw [hlenset]; norm_num) hstart
  obtain ⟨e, heq, hor⟩ := hmast
  refine ⟨e, ?_, by tauto⟩
  unfold setitem
  have hco : por (pshl ((pos : Nat) : Int) 1) 1 = ((2 * pos + 1 : Nat) : Int) := by
    rw [leafCoord]; push_cast; ring
  rw [hco]
  have hset : pySet (specTree f L) ((2 * pos + 1 : Nat) : Int) (some v)
      = .ok ((specTree f L).set (2 * pos + 1) (some v)) :=
    pySet_nat _ _ (by rw [specTree_length]; omega) _
  simp only [hset]
  rw [specTree_length]
  rw [ancCoord_zero] at heq
  have h20 : ((2 ^ 0 : Nat) : Int) = 1 := by norm_num
  rw [h20] at heq
  rw [show 2 * L.length + 1 = 2 * L.length + 1 from rfl]
  exact heq

theorem two_n_anc (n : Nat) (hn : 1 ≤ n) : ∃ s, 1 ≤ s ∧ 2 * n = ancCoord n s := by
  obtain ⟨u, m, hd⟩ := coord_decomp n (by omega)
  refine ⟨u + 1, by omega, ?_⟩
  unfold ancCoord
  have hdiv : n / 2 ^ (u + 1) = m := by
    rw [hd, pow_succ]
    rw [Nat.mul_div_mul_left _ _ (Nat.pos_pow_of_pos u (by norm_num))]
    omega
  rw [hdiv, hd]
  ring

/-- `append` on a specified state always completes and produces exactly the
specified state of the extended contents. -/
theorem append_spec (f : T → T → T) (L : List T) (v : T) :
    append f (specTree f L) v = (specTree f (L ++ [v]), none) := by
  have hlen' : (L ++ [v]).length = L.length + 1 := by simp
  have hpadlen : (specTree f L ++ [none, none] : List (Option T)).length
      = 2 * L.length + 2 := by
    rw [List.length_append, specTree_length]
    rfl
  have hstart : ClimbInv f (L ++ [v]) L.length 0
      ((specTree f L ++ [none, none]).set (2 * L.length + 1) (some v)) := by
    refine ⟨?_, ?_, ?_, ?_⟩
    · rw [List.length_set, hpadlen, hlen']
      ring
    · intro c hc hne
      rw [hlen'] at hc
      by_cases hcl : c = 2 * L.length + 1
      · subst hcl
        rw [List.getElem?_set_self (by omega)]
        rw [specTree_get_leaf f _ L.length (by omega)]
        rw [List.getElem?_concat_length]
      · rw [List.getElem?_set_ne (by omega)]
        rcases Nat.lt_or_ge c (2 * L.length) with hclt | hcge
        · rw [List.getElem?_append, if_pos (by rw [specTree_length]; omega)]
          rcases Nat.eq_zero_or_pos c with hc0 | hc0
          · subst hc0
            rw [specTree_get_zero f L (by omega), specTree_get_zero f _ (by omega)]
          · obtain ⟨u, m, rfl⟩ := coord_decomp c (by omega)
            rw [specTree_get f L u m (by omega), specTree_get f _ u m (by omega)]
            have hm : m ≠ L.length / 2 ^ u := by
              cases u with
              | zero =>
                intro hcontra
                simp at hcontra
                omega
              | succ u' =>
                intro hcontra
                exact hne (u' + 1) (by omega) (by unfold ancCoord; rw [hcontra])
            rw [nodeVal_append_ne f L v u m hm]
        · -- c = 2 * L.length, which is an ancestor slot (or the empty case)
          have hc2 : c = 2 * L.length := by omega
          subst hc2
          rcases Nat.eq_zero_or_pos L.length with hn0 | hn0
          · rw [hn0]
            have he : specTree f L = ([] : List (Option T)) := by
              have h2 := specTree_length f L
              rw [hn0] at h2
              simp only [Nat.mul_zero] at h2
              exact List.eq_nil_of_length_eq_zero h2
            rw [he]
            simp only [List.nil_append, List.getElem?_cons_zero, Nat.mul_zero]
            rw [specTree_get_zero f (L ++ [v]) (by simp)]
          · obtain ⟨s, hs1, hs2⟩ := two_n_anc L.length hn0
            exact (hne s hs1 hs2).elim
    · intro s hs hslt hsinc
      rw [hlen'] at hslt hsinc
      have hne : ancCoord L.length s ≠ 2 * L.length + 1 := by
        have := node_ne_ancCoord (t := 0) (m := L.length) L.length s (by omega)
        intro h
        apply this
        rw [← h]
        norm_num
      rw [List.getElem?_set_ne (by omega)]
      rcases Nat.lt_or_ge (ancCoord L.length s) (2 * L.length) with halt | hage
      · rw [List.getElem?_append, if_pos (by rw [specTree_length]; omega)]
        unfold ancCoord at halt ⊢
        rw [specTree_get f L s (L.length / 2 ^ s) halt]
        rw [nodeVal_none_of_incomplete f L s (L.length / 2 ^ s) (anc_gt L.length s)]
      · rw [List.getElem?_append, if_neg (by rw [specTree_length]; omega)]
        rw [specTree_length]
        have : ancCoord L.length s - 2 * L.length = 0 ∨ ancCoord L.length s - 2 * L.length = 1 := by
          omega
        rcases this with h0 | h1
        · rw [h0]; rfl
        · rw [h1]; rfl
    · simp only [pow_zero, one_mul, Nat.div_one, hlen']
      omega
  have hmast := setLoop_master f (L ++ [v]) L.length (by omega) (2 * L.length + 2) 0
    ((specTree f L ++ [none, none]).set (2 * L.length + 1) (some v))
    (by rw [hlen']; norm_num; omega) hstart
  obtain ⟨e, heq, hor⟩ := hmast
  have henone : e = none := by
    rcases hor with h | ⟨_, u, hw1, hw2⟩
    · exact h
    · exfalso
      rw [hlen'] at hw1 hw2
      have e1 : 2 ^ u * (2 * (L.length / 2 ^ u) + 1)
          = 2 * (2 ^ u * (L.length / 2 ^ u)) + 2 ^ u := by ring
      have e2 : (2:Nat) ^ (u + 1) = 2 * 2 ^ u := by ring
      have e3 := anc_gt L.length u
      have e4 : 2 ^ u * (L.length / 2 ^ u + 1) = 2 ^ u * (L.length / 2 ^ u) + 2 ^ u := by ring
      have e5 : (1:Nat) ≤ 2 ^ u := Nat.one_le_two_pow
      omega
  subst henone
  unfold append setitem
  have hsz : ((specTree f L).length >>> 1 : Nat) = L.length := by
    rw [specTree_length, Nat.shiftRight_eq_div_pow]
    omega
  rw [hsz]
  have hco : por (pshl ((L.length : Nat) : Int) 1) 1 = ((2 * L.length + 1 : Nat) : Int) := by
    rw [leafCoord]; push_cast; ring
  rw [hco]
  have hset : pySet (specTree f L ++ [none, none]) ((2 * L.length + 1 : Nat) : Int) (some v)
      = .ok ((specTree f L ++ [none, none]).set (2 * L.length + 1) (some v)) :=
    pySet_nat _ _ (by rw [hpadlen]; omega) _
  simp only [hset]
  rw [hpadlen]
  rw [ancCoord_zero] at heq
  have h20 : ((2 ^ 0 : Nat) : Int) = 1 := by norm_num
  rw [h20] at heq
  rw [show 2 * L.length + 2 + 1 = 2 * L.length + 2 + 1 from rfl]
  exact heq

/-!
## The construction climb

During construction, after placing the first `p` values the buffer is the
specified contents of that prefix followed by untouched empty slots.
`specPad` is that shape; `InitInv` is the invariant of the construction
climb, which always ascends from the ancestor of the *last* position of the
prefix, whose subtree is exactly complete. -/

theorem specPad_length (f : T → T → T) (L : List T) (R : Nat) :
    (specPad f L R).length = 2 * L.length + 2 * R := by
  unfold specPad
  rw [List.length_append, specTree_length, List.length_replicate]

theorem specPad_get_lt (f : T → T → T) (L : List T) (R c : Nat)
    (hc : c < 2 * L.length) : (specPad f L R)[c]? = (specTree f L)[c]? := by
  unfold specPad
  rw [List.getElem?_append, if_pos (by rw [specTree_length]; omega)]

theorem specPad_get_pad (f : T → T → T) (L : List T) (R c : Nat)
    (h1 : 2 * L.length ≤ c) (h2 : c < 2 * L.length + 2 * R) :
    (specPad f L R)[c]? = some none := by
  unfold specPad
  rw [List.getElem?_append, if_neg (by rw [specTree_length]; omega), specTree_length,
    List.getElem?_replicate, if_pos (by omega)]

theorem initInv_exit (f : T → T → T) (L' : List T) (R pos t : Nat)
    (B : List (Option T)) (hInv : InitInv f L' R pos t B)
    (hstale : L'.length < 2 ^ (t + 1) * (pos / 2 ^ (t + 1) + 1)) :
    B = specPad f L' R := by
  obtain ⟨hlen, hH, hS, _⟩ := hInv
  apply List.ext_getElem?
  intro c
  rcases le_or_lt (2 * L'.length + 2 * R) c with hc | hc
  · rw [List.getElem?_eq_none (by omega), List.getElem?_eq_none (by rw [specPad_length]; omega)]
  · by_cases hanc : ∃ s, t + 1 ≤ s ∧ c = ancCoord pos s
    · obtain ⟨s, hs, rfl⟩ := hanc
      have hinc : L'.length < 2 ^ s * (pos / 2 ^ s + 1) := by
        by_contra hcomp
        exact absurd (anc_complete_mono pos L'.length (t + 1) s hs (by omega)) (by omega)
      rw [hS s hs hc hinc]
      rcases Nat.lt_or_ge (ancCoord pos s) (2 * L'.length) with hlt | hge
      · rw [specPad_get_lt f L' R _ hlt]
        unfold ancCoord at hlt ⊢
        rw [specTree_get f L' s (pos / 2 ^ s) hlt]
        rw [nodeVal_none_of_incomplete f L' s (pos / 2 ^ s) hinc]
      · rw [specPad_get_pad f L' R _ hge hc]
    · push_neg at hanc
      exact hH c hc hanc

theorem initInv_read (f : T → T → T) (L' : List T) (R pos t : Nat)
    (B : List (Option T)) (hInv : InitInv f L' R pos t B) (u m : Nat)
    (hlt : 2 ^ u * (2 * m + 1) < 2 * L'.length)
    (hne : ∀ s, t + 1 ≤ s → 2 ^ u * (2 * m + 1) ≠ ancCoord pos s) :
    B[2 ^ u * (2 * m + 1)]? = some (nodeVal f L' u m) := by
  obtain ⟨hlen, hH, hS, _⟩ := hInv
  rw [hH _ (by omega) hne, specPad_get_lt f L' R _ hlt, specTree_get f L' u m hlt]

theorem initInv_advance (f : T → T → T) (L' : List T) (R pos t : Nat)
    (B : List (Option T)) (x y : T)
    (hInv : InitInv f L' R pos t B)
    (hx : nodeVal f L' t (2 * (pos / 2 ^ (t + 1))) = some x)
    (hy : nodeVal f L' t (2 * (pos / 2 ^ (t + 1)) + 1) = some y)
    (hplt : 2 ^ (t + 1) * (2 * (pos / 2 ^ (t + 1)) + 1) < 2 * L'.length)
    (hexact : 2 ^ (t + 1) * (pos / 2 ^ (t + 1) + 1) = L'.length) :
    InitInv f L' R pos (t + 1)
      (B.set (2 ^ (t + 1) * (2 * (pos / 2 ^ (t + 1)) + 1)) (some (f x y))) := by
  obtain ⟨hlen, hH, hS, _⟩ := hInv
  have hanc1 : ancCoord pos (t + 1) = 2 ^ (t + 1) * (2 * (pos / 2 ^ (t + 1)) + 1) := rfl
  refine ⟨by rw [List.length_set]; exact hlen, ?_, ?_, hexact⟩
  · intro c hc hne
    by_cases hcp : c = 2 ^ (t + 1) * (2 * (pos / 2 ^ (t + 1)) + 1)
    · subst hcp
      rw [List.getElem?_set_self (by omega)]
      rw [specPad_get_lt f L' R _ hplt]
      rw [specTree_get f L' (t + 1) (pos / 2 ^ (t + 1)) hplt]
      rw [nodeVal, hx, hy]
    · rw [List.getElem?_set_ne (by omega)]
      apply hH c hc
      intro s hs
      rcases Nat.lt_or_ge s (t + 2) with hs2 | hs2
      · have : s = t + 1 := by omega
        subst this
        rw [hanc1]
        exact hcp
      · exact hne s hs2
  · intro s hs hslt hsinc
    have hne : ancCoord pos s ≠ 2 ^ (t + 1) * (2 * (pos / 2 ^ (t + 1)) + 1) := by
      rw [← hanc1]
      intro h
      unfold ancCoord at h
      have := (coord_unique h).1
      omega
    rw [List.getElem?_set_ne (by omega)]
    exact hS s (by omega) hslt hsinc

/-- Master lemma for the `__init__` climb: ascending from the exactly
complete ancestor of the last prefix position, the loop completes the newly
finished subtrees and never raises. -/
theorem initLoop_chain (f : T → T → T) (L' : List T) (R pos : Nat) :
    ∀ F t B, 2 * L'.length ≤ F + 2 ^ t →
      InitInv f L' R pos t B →
      initLoop f (F + 1) B ((ancCoord pos t : Nat) : Int) ((2 ^ t : Nat) : Int)
        = (specPad f L' R, none) := by
  intro F
  induction F with
  | zero =>
    intro t B hfuel hInv
    have hexact := hInv.2.2.2
    have hpow : (2:Nat) ^ (t + 1) = 2 ^ t + 2 ^ t := by ring
    have hkpos : (1:Nat) ≤ 2 ^ t := Nat.one_le_two_pow
    have hm0 : pos / 2 ^ t = 0 := by
      apply Nat.div_eq_of_lt
      have h1 : 2 ^ t * (pos / 2 ^ t) ≤ pos := anc_le pos t
      have h2 : pos < L'.length := by
        have := anc_gt pos t
        omega
      omega
    have hanc : ancCoord pos t = 2 ^ t * (2 * (2 * 0) + 1) := by
      unfold ancCoord; rw [hm0]
    rw [initLoop, hanc]
    simp only [pshl_pow, pand_cast]
    rw [node_and2k_even t 0]
    rw [if_neg (by simp)]
    have hstale : L'.length < 2 ^ (t + 1) * (pos / 2 ^ (t + 1) + 1) := by
      have h2 : 2 ^ (t + 1) * 1 ≤ 2 ^ (t + 1) * (pos / 2 ^ (t + 1) + 1) :=
        Nat.mul_le_mul_left _ (Nat.succ_le_succ (Nat.zero_le _))
      have h3 : L'.length < 2 ^ (t + 1) * 1 := by omega
      exact lt_of_lt_of_le h3 h2
    rw [initInv_exit f L' R pos t B hInv hstale]
  | succ F ih =>
    intro t B hfuel hInv
    have hInvKeep := hInv
    obtain ⟨hlen, hH, hS, hexact⟩ := hInv
    have hpow : (2:Nat) ^ (t + 1) = 2 ^ t + 2 ^ t := by ring
    have hkpos : (1:Nat) ≤ 2 ^ t := Nat.one_le_two_pow
    have hM2 : pos / 2 ^ (t + 1) = pos / 2 ^ t / 2 := by
      rw [Nat.div_div_eq_div_mul, pow_succ]
    rcases Nat.mod_two_eq_zero_or_one (pos / 2 ^ t) with hm | hm
    · -- left child: the construction climb stops
      obtain ⟨M, hMm⟩ : ∃ M, pos / 2 ^ t = 2 * M := ⟨pos / 2 ^ t / 2, by omega⟩
      have hMM : pos / 2 ^ (t + 1) = M := by omega
      have hanc : ancCoord pos t = 2 ^ t * (2 * (2 * M) + 1) := by
        unfold ancCoord; rw [hMm]
      rw [initLoop, hanc]
      simp only [pshl_pow, pand_cast]
      rw [node_and2k_even t M]
      rw [if_neg (by simp)]
      have hstale : L'.length < 2 ^ (t + 1) * (pos / 2 ^ (t + 1) + 1) := by
        rw [hMM]
        have e1 : 2 ^ (t + 1) * (M + 1) = 2 ^ t * (2 * M + 2) := by ring
        have e2 : 2 ^ t * (2 * M + 1) < 2 ^ t * (2 * M + 2) :=
          (Nat.mul_lt_mul_left (by omega)).mpr (by omega)
        rw [hMm] at hexact
        omega
      rw [initInv_exit f L' R pos t B hInvKeep hstale]
    · -- right child: combine with the (complete) left sibling and continue
      obtain ⟨M, hMm⟩ : ∃ M, pos / 2 ^ t = 2 * M + 1 := ⟨pos / 2 ^ t / 2, by omega⟩
      have hMM : pos / 2 ^ (t + 1) = M := by omega
      have hanc : ancCoord pos t = 2 ^ t * (2 * (2 * M + 1) + 1) := by
        unfold ancCoord; rw [hMm]
      have hancp : ancCoord pos (t + 1) = 2 ^ (t + 1) * (2 * M + 1) := by
        unfold ancCoord; rw [hMM]
      have hexact' : 2 ^ t * (2 * M + 1 + 1) = L'.length := by
        rw [hMm] at hexact
        omega
      rw [initLoop, hanc]
      simp only [pshl_pow, pand_cast, pandnot_cast, por_cast]
      rw [node_and2k_odd t M, node_ldiff2k_odd t M, node_parent_odd t M]
      rw [if_pos (by
        intro h
        have h2 : (2:Nat) ^ (t + 1) = 0 := by exact_mod_cast h
        have := Nat.pos_pow_of_pos (n := 2) (t + 1) (by norm_num)
        omega)]
      have h2n : 2 * L'.length = 2 ^ t * (4 * M + 4) := by
        have : 2 ^ t * (2 * M + 1 + 1) = 2 ^ t * (2 * M + 2) := by ring
        have e2 : 2 * (2 ^ t * (2 * M + 2)) = 2 ^ t * (4 * M + 4) := by ring
        omega
      have hanclt : 2 ^ t * (2 * (2 * M + 1) + 1) < 2 * L'.length := by
        have e1 : 2 ^ t * (2 * (2 * M + 1) + 1) = 2 ^ t * (4 * M + 3) := by ring
        have h3 : 2 ^ t * (4 * M + 3) < 2 ^ t * (4 * M + 4) :=
          (Nat.mul_lt_mul_left (by omega)).mpr (by omega)
        omega
      have hL : B[2 ^ t * (2 * (2 * M) + 1)]? = some (nodeVal f L' t (2 * M)) := by
        apply initInv_read f L' R pos t B hInvKeep t (2 * M)
        · have h3 : 2 ^ t * (2 * (2 * M) + 1) < 2 ^ t * (2 * (2 * M + 1) + 1) :=
            (Nat.mul_lt_mul_left (by omega)).mpr (by omega)
          omega
        · intro s hs
          exact node_ne_ancCoord pos s (by omega)
      have hR : B[2 ^ t * (2 * (2 * M + 1) + 1)]? = some (nodeVal f L' t (2 * M + 1)) := by
        apply initInv_read f L' R pos t B hInvKeep t (2 * M + 1)
        · omega
        · intro s hs
          exact node_ne_ancCoord pos s (by omega)
      obtain ⟨x, hx⟩ := nodeVal_some_of_complete f L' t (2 * M)
        (by have : (2:Nat) ^ t * (2 * M + 1) ≤ 2 ^ t * (2 * M + 1 + 1) :=
              Nat.mul_le_mul_left _ (by omega)
            omega)
      obtain ⟨y, hy⟩ := nodeVal_some_of_complete f L' t (2 * M + 1) (by omega)
      have hgetL : pyGet B ((2 ^ t * (2 * (2 * M) + 1) : Nat) : Int)
          = .ok (some x) := pyGet_ok (by rw [hL, hx])
      have hgetR : pyGet B ((2 ^ t * (2 * (2 * M + 1) + 1) : Nat) : Int)
          = .ok (some y) := pyGet_ok (by rw [hR, hy])
      simp only [hgetL, hgetR]
      have hplt : 2 ^ (t + 1) * (2 * M + 1) < 2 * L'.length := by
        have e : 2 ^ (t + 1) * (2 * M + 1) = 2 ^ t * (4 * M + 2) := by ring
        have h4 : 2 ^ t * (4 * M + 2) < 2 ^ t * (4 * M + 4) :=
          (Nat.mul_lt_mul_left (by omega)).mpr (by omega)
        omega
      have hset : pySet B ((2 ^ (t + 1) * (2 * M + 1) : Nat) : Int) (some (f x y))
          = .ok (B.set (2 ^ (t + 1) * (2 * M + 1)) (some (f x y))) :=
        pySet_nat B _ (by omega) _
      simp only [hset]
      have hexact2 : 2 ^ (t + 1) * (pos / 2 ^ (t + 1) + 1) = L'.length := by
        rw [hMM]
        have e : 2 ^ (t + 1) * (M + 1) = 2 ^ t * (2 * M + 1 + 1) := by ring
        omega
      have hInv2 : InitInv f L' R pos (t + 1)
          (B.set (2 ^ (t + 1) * (2 * M + 1)) (some (f x y))) := by
        have := initInv_advance f L' R pos t B x y hInvKeep
          (by rw [hMM]; exact hx) (by rw [hMM]; exact hy) (by rw [hMM]; exact hplt)
          hexact2
        rw [hMM] at this
        exact this
      have hfuel2 : 2 * L'.length ≤ F + 2 ^ (t + 1) := by omega
      have := ih (t + 1) (B.set (2 ^ (t + 1) * (2 * M + 1)) (some (f x y)))
        hfuel2 hInv2
      rw [hancp] at this
      exact this

theorem init_start (f : T → T → T) (P : List T) (v : T) (R : Nat) :
    InitInv f (P ++ [v]) R P.length 0
      ((specPad f P (R + 1)).set (2 * P.length + 1) (some v)) := by
  have hlen' : (P ++ [v]).length = P.length + 1 := by simp
  have hPlen := specPad_length f P (R + 1)
  refine ⟨?_, ?_, ?_, ?_⟩
  · rw [List.length_set, hPlen, hlen']
    ring
  · intro c hc hne
    rw [hlen'] at hc
    by_cases hcl : c = 2 * P.length + 1
    · subst hcl
      rw [List.getElem?_set_self (by omega)]
      rw [specPad_get_lt f _ R _ (by rw [hlen']; omega)]
      rw [specTree_get_leaf f _ P.length (by rw [hlen']; omega)]
      rw [List.getElem?_concat_length]
    · rw [List.getElem?_set_ne (by omega)]
      rcases Nat.lt_or_ge c (2 * P.length) with hclt | hcge
      · rw [specPad_get_lt f P (R + 1) _ hclt, specPad_get_lt f _ R _ (by rw [hlen']; omega)]
        rcases Nat.eq_zero_or_pos c with hc0 | hc0
        · subst hc0
          rw [specTree_get_zero f P (by omega), specTree_get_zero f _ (by rw [hlen']; omega)]
        · obtain ⟨u, m, rfl⟩ := coord_decomp c (by omega)
          rw [specTree_get f P u m (by omega),
            specTree_get f _ u m (by rw [hlen']; omega)]
          have hm : m ≠ P.length / 2 ^ u := by
            cases u with
            | zero =>
              intro hcontra
              simp at hcontra
              omega
            | succ u' =>
              intro hcontra
              exact hne (u' + 1) (by omega) (by unfold ancCoord; rw [hcontra])
          rw [nodeVal_append_ne f P v u m hm]
      · rcases Nat.lt_or_ge c (2 * P.length + 2) with hc2 | hc3
        · have hc2p : c = 2 * P.length := by omega
          subst hc2p
          rcases Nat.eq_zero_or_pos P.length with hn0 | hn0
          · rw [specPad_get_pad f P (R + 1) _ (by omega) (by omega)]
            rw [specPad_get_lt f _ R _ (by rw [hlen', hn0]; omega)]
            rw [hn0]
            rw [show (2:Nat) * 0 = 0 from rfl]
            rw [specTree_get_zero f _ (by rw [hlen']; omega)]
          · obtain ⟨s, hs1, hs2⟩ := two_n_anc P.length hn0
            exact (hne s (by omega) hs2).elim
        · rw [specPad_get_pad f P (R + 1) _ (by omega) (by omega)]
          rw [specPad_get_pad f _ R _ (by rw [hlen']; omega) (by rw [hlen']; omega)]
  · intro s hs hslt hsinc
    have hne1 : ancCoord P.length s ≠ 2 * P.length + 1 := by
      have := node_ne_ancCoord (t := 0) (m := P.length) P.length s (by omega)
      intro h
      apply this
      rw [← h]
      norm_num
    rw [hlen'] at hslt
    rw [List.getElem?_set_ne (by omega)]
    rcases Nat.lt_or_ge (ancCoord P.length s) (2 * P.length) with halt | hage
    · rw [specPad_get_lt f P (R + 1) _ halt]
      unfold ancCoord at halt ⊢
      rw [specTree_get f P s (P.length / 2 ^ s) halt]
      rw [nodeVal_none_of_incomplete f P s (P.length / 2 ^ s) (anc_gt P.length s)]
    · rw [specPad_get_pad f P (R + 1) _ hage (by omega)]
  · simp only [pow_zero, one_mul, Nat.div_one, hlen']

theorem initStep_spec (f : T → T → T) (P : List T) (v : T) (R : Nat) :
    initStep f (specPad f P (R + 1), none) P.length v
      = (specPad f (P ++ [v]) R, none) := by
  rw [initStep]
  have hco : por (pshl ((P.length : Nat) : Int) 1) 1 = ((2 * P.length + 1 : Nat) : Int) := by
    rw [leafCoord]; push_cast; ring
  rw [hco]
  have hPlen := specPad_length f P (R + 1)
  have hset : pySet (specPad f P (R + 1)) ((2 * P.length + 1 : Nat) : Int) (some v)
      = .ok ((specPad f P (R + 1)).set (2 * P.length + 1) (some v)) :=
    pySet_nat _ _ (by omega) _
  simp only [hset]
  have hchain := initLoop_chain f (P ++ [v]) R P.length (2 * P.length + 2 * R + 2) 0
    ((specPad f P (R + 1)).set (2 * P.length + 1) (some v))
    (by simp only [List.length_append, List.length_singleton]; norm_num; omega)
    (init_start f P v R)
  rw [ancCoord_zero] at hchain
  have h20 : ((2 ^ 0 : Nat) : Int) = 1 := by norm_num
  rw [h20] at hchain
  rw [hPlen]
  rw [show 2 * P.length + 2 * (R + 1) + 1 = 2 * P.length + 2 * R + 2 + 1 by ring]
  exact hchain

theorem initPass_spec (f : T → T → T) :
    ∀ (Q P : List T),
      initPass f Q P.length (specPad f P Q.length, none)
        = (specTree f (P ++ Q), none) := by
  intro Q
  induction Q with
  | nil =>
    intro P
    rw [initPass]
    unfold specPad
    simp
  | cons v rest ih =>
    intro P
    rw [initPass]
    have hQlen : (v :: rest).length = rest.length + 1 := rfl
    rw [hQlen]
    rw [initStep_spec f P v rest.length]
    have := ih (P ++ [v])
    rw [show (P ++ [v]).length = P.length + 1 by simp] at this
    rw [this]
    rw [List.append_assoc]
    rfl

/-- `__init__` always completes and produces exactly the specified buffer. -/
theorem initFold_spec (f : T → T → T) (values : List T) :
    initFold f values = (specTree f values, none) := by
  unfold initFold
  have h1 : List.replicate (values.length <<< 1) (none : Option T)
      = specPad f ([] : List T) values.length := by
    unfold specPad
    have h2 : specTree f ([] : List T) = [] := by
      unfold specTree
      simp
    rw [h2, List.nil_append, Nat.shiftLeft_eq]
    congr 1
    ring
  rw [h1]
  exact initPass_spec f values ([] : List T)

/-- Master invariant: every reachable buffer is exactly the specified buffer
of its logical contents. -/
theorem reach_spec (f : T → T → T) {L : List T} {tree : List (Option T)}
    (h : Reach f L tree) : tree = specTree f L := by
  induction h with
  | construct values =>
    rw [initFold_spec]
  | setOk i v tree' hr hi hset ih =>
    rw [ih] at hset
    obtain ⟨e, heq, _⟩ := setitem_spec f _ i v hi
    rw [heq] at hset
    exact (Prod.mk.injEq _ _ _ _).mp hset |>.1.symm
  | appendOk v tree' hr happ ih =>
    rw [ih, append_spec] at happ
    exact (Prod.mk.injEq _ _ _ _).mp happ |>.1.symm

theorem accLeft_some (f : T → T → T) (left : Option T) (x : T) :
    accLeft f left (some x) = .ok (omerge f left (some x)) := by
  cases left <;> rfl

theorem accRight_some (f : T → T → T) (right : Option T) (x : T) :
    accRight f (some x) right = .ok (omerge f (some x) right) := by
  cases right <;> rfl

/-- Master lemma for the `query` loop: with both boundaries at level `t` and
the accumulators holding the folds of the already consumed outer segments,
the loop returns accumulators that together fold the whole original range. -/
theorem queryLoop_master (f : T → T → T) (hf : ∀ a b c, f (f a b) c = f a (f b c))
    (L : List T) :
    ∀ F t a b lo hi,
      lo ≤ 2 ^ t * a → 2 ^ t * b ≤ hi → hi ≤ L.length → a ≤ b → b - a ≤ F →
      ∃ c, lo ≤ c ∧ c ≤ hi ∧
        queryLoop f (specTree f L) (F + 1)
          ((2 ^ t * (2 * a + 1) : Nat) : Int) ((2 ^ t * (2 * b + 1) : Nat) : Int)
          ((2 ^ t : Nat) : Int)
          (segFold f L lo (2 ^ t * a)) (segFold f L (2 ^ t * b) hi)
          = .ok (segFold f L lo c, segFold f L c hi) := by
  intro F
  induction F with
  | zero =>
    intro t a b lo hi hlo hhi hn hab hF
    have hab2 : a = b := by omega
    subst hab2
    refine ⟨2 ^ t * a, hlo, by omega, ?_⟩
    rw [queryLoop]
    rw [if_neg (by omega)]
  | succ F ih =>
    intro t a b lo hi hlo hhi hn hab hF
    rcases Nat.eq_or_lt_of_le hab with heq | hlt
    · subst heq
      refine ⟨2 ^ t * a, hlo, by omega, ?_⟩
      rw [queryLoop]
      rw [if_neg (by omega)]
    · have hkpos : (1:Nat) ≤ 2 ^ t := Nat.one_le_two_pow
      have hilt : (2:Nat) ^ t * (2 * a + 1) < 2 ^ t * (2 * b + 1) :=
        (Nat.mul_lt_mul_left (by omega)).mpr (by omega)
      rw [queryLoop]
      rw [if_pos (by omega)]
      simp only [pshl_pow]
      rcases Nat.mod_two_eq_zero_or_one a with ha | ha
      · -- left boundary is a left child: nothing is consumed
        obtain ⟨A, rfl⟩ : ∃ A, a = 2 * A := ⟨a / 2, by omega⟩
        rw [pand_cast, node_and2k_even t A]
        rw [if_neg (by simp)]
        simp only []
        rcases Nat.mod_two_eq_zero_or_one b with hb | hb
        · -- right boundary is a left child
          obtain ⟨B, rfl⟩ : ∃ B, b = 2 * B := ⟨b / 2, by omega⟩
          rw [pand_cast, node_and2k_even t B]
          rw [if_neg (by simp)]
          simp only []
          rw [pandnot_cast, por_cast, node_parent_even t A]
          rw [pandnot_cast, por_cast, node_parent_even t B]
          rw [show (2:Nat) ^ t * (2 * A) = 2 ^ (t + 1) * A by ring]
          rw [show (2:Nat) ^ t * (2 * B) = 2 ^ (t + 1) * B by ring]
          exact ih (t + 1) A B lo hi
            (by rw [show (2:Nat) ^ (t + 1) * A = 2 ^ t * (2 * A) by ring]; omega)
            (by rw [show (2:Nat) ^ (t + 1) * B = 2 ^ t * (2 * B) by ring]; omega)
            hn (by omega) (by omega)
        · -- right boundary is a right child: consume the node left of it
          obtain ⟨B, rfl⟩ : ∃ B, b = 2 * B + 1 := ⟨b / 2, by omega⟩
          rw [pand_cast, node_and2k_odd t B]
          rw [if_pos (by
            intro hcontra
            have h0 : (2:Nat) ^ (t + 1) = 0 := by exact_mod_cast hcontra
            have := Nat.pos_pow_of_pos (n := 2) (t + 1) (by norm_num)
            omega)]
          have hsub : ((2 ^ t * (2 * (2 * B + 1) + 1) : Nat) : Int) - ((2 ^ (t + 1) : Nat) : Int)
              = ((2 ^ t * (2 * (2 * B) + 1) : Nat) : Int) := by
            push_cast; ring
          rw [hsub]
          have hrcomp : 2 ^ t * (2 * B + 1) ≤ L.length := by omega
          obtain ⟨y, hy⟩ := segFold_some f L (2 ^ t * (2 * B)) (2 ^ t * (2 * B + 1))
            ((Nat.mul_lt_mul_left (by omega)).mpr (by omega)) (by omega)
          have hnodeR : nodeVal f L t (2 * B) = some y := by
            rw [nodeVal_eq_segFold f hf L t (2 * B) (by
              rw [show (2:Nat) ^ t * (2 * B + 1) = 2 ^ t * (2 * B + 1) from rfl]
              omega)]
            exact hy
          have hgetR : pyGet (specTree f L) ((2 ^ t * (2 * (2 * B) + 1) : Nat) : Int)
              = .ok (some y) := by
            apply pyGet_ok
            rw [specTree_get f L t (2 * B) (by
              have h2 : 2 ^ t * (2 * (2 * B) + 1) < 2 ^ t * (2 * (2 * B) + 2) :=
                (Nat.mul_lt_mul_left (by omega)).mpr (by omega)
              have h3 : 2 ^ t * (2 * (2 * B) + 2) = 2 * (2 ^ t * (2 * B + 1)) := by ring
              omega)]
            rw [hnodeR]
          simp only [hgetR]
          rw [accRight_some]
          simp only []
          have hright1 : omerge f (some y) (segFold f L (2 ^ t * (2 * B + 1)) hi)
              = segFold f L (2 ^ t * (2 * B)) hi := by
            rw [← hy]
            exact segFold_glue f hf L _ _ _ (Nat.mul_le_mul_left _ (by omega)) (by omega)
          rw [hright1]
          rw [pandnot_cast, por_cast, node_parent_even t A]
          rw [pandnot_cast, por_cast, node_parent_even t B]
          rw [show (2:Nat) ^ t * (2 * A) = 2 ^ (t + 1) * A by ring]
          rw [show (2:Nat) ^ t * (2 * B) = 2 ^ (t + 1) * B by ring]
          exact ih (t + 1) A B lo hi
            (by rw [show (2:Nat) ^ (t + 1) * A = 2 ^ t * (2 * A) by ring]; omega)
            (by rw [show (2:Nat) ^ (t + 1) * B = 2 ^ t * (2 * B) by ring]
                have hmono : (2:Nat) ^ t * (2 * B) ≤ 2 ^ t * (2 * B + 1) :=
                  Nat.mul_le_mul_left _ (by omega)
                omega)
            hn (by omega) (by omega)
      · -- left boundary is a right child: consume its node
        obtain ⟨A, rfl⟩ : ∃ A, a = 2 * A + 1 := ⟨a / 2, by omega⟩
        rw [pand_cast, node_and2k_odd t A]
        rw [if_pos (by
          intro hcontra
          have h0 : (2:Nat) ^ (t + 1) = 0 := by exact_mod_cast hcontra
          have := Nat.pos_pow_of_pos (n := 2) (t + 1) (by norm_num)
          omega)]
        have hlcomp : 2 ^ t * (2 * A + 1 + 1) ≤ L.length := by
          have h1 : 2 ^ t * (2 * A + 1 + 1) ≤ 2 ^ t * (2 * b + 1) := by
            exact Nat.mul_le_mul_left _ (by omega)
          have h2 : 2 ^ t * (2 * A + 1 + 1) ≤ 2 ^ t * b := Nat.mul_le_mul_left _ (by omega)
          omega
        obtain ⟨x, hx⟩ := segFold_some f L (2 ^ t * (2 * A + 1)) (2 ^ t * (2 * A + 1 + 1))
          ((Nat.mul_lt_mul_left (by omega)).mpr (by omega)) (by omega)
        have hnodeL : nodeVal f L t (2 * A + 1) = some x := by
          rw [nodeVal_eq_segFold f hf L t (2 * A + 1) hlcomp]
          exact hx
        have hgetL : pyGet (specTree f L) ((2 ^ t * (2 * (2 * A + 1) + 1) : Nat) : Int)
            = .ok (some x) := by
          apply pyGet_ok
          rw [specTree_get f L t (2 * A + 1) (by
            have h2 : 2 ^ t * (2 * (2 * A + 1) + 1) < 2 ^ t * (2 * (2 * A + 1) + 2) :=
              (Nat.mul_lt_mul_left (by omega)).mpr (by omega)
            have h3 : 2 ^ t * (2 * (2 * A + 1) + 2) = 2 * (2 ^ t * (2 * A + 1 + 1)) := by ring
            omega)]
          rw [hnodeL]
        simp only [hgetL]
        rw [accLeft_some]
        have hadd : ((2 ^ t * (2 * (2 * A + 1) + 1) : Nat) : Int) + ((2 ^ (t + 1) : Nat) : Int)
            = ((2 ^ t * (2 * (2 * (A + 1)) + 1) : Nat) : Int) := by
          push_cast; ring
        rw [hadd]
        simp only []
        have hleft1 : omerge f (segFold f L lo (2 ^ t * (2 * A + 1))) (some x)
            = segFold f L lo (2 ^ t * (2 * A + 1 + 1)) := by
          rw [← hx]
          exact segFold_glue f hf L lo _ _ (by omega) (Nat.mul_le_mul_left _ (by omega))
        rw [hleft1]
        rcases Nat.mod_two_eq_zero_or_one b with hb | hb
        · obtain ⟨B, rfl⟩ : ∃ B, b = 2 * B := ⟨b / 2, by omega⟩
          rw [pand_cast, node_and2k_even t B]
          rw [if_neg (by simp)]
          simp only []
          rw [pandnot_cast, por_cast, node_parent_even t (A + 1)]
          rw [pandnot_cast, por_cast, node_parent_even t B]
          rw [show (2:Nat) ^ t * (2 * A + 1 + 1) = 2 ^ (t + 1) * (A + 1) by ring]
          rw [show (2:Nat) ^ t * (2 * B) = 2 ^ (t + 1) * B by ring]
          exact ih (t + 1) (A + 1) B lo hi
            (by rw [show (2:Nat) ^ (t + 1) * (A + 1) = 2 ^ t * (2 * A + 1 + 1) by ring]
                have hmono : (2:Nat) ^ t * (2 * A + 1) ≤ 2 ^ t * (2 * A + 1 + 1) :=
                  Nat.mul_le_mul_left _ (by omega)
                omega)
            (by rw [show (2:Nat) ^ (t + 1) * B = 2 ^ t * (2 * B) by ring]; omega)
            hn (by omega) (by omega)
        · obtain ⟨B, rfl⟩ : ∃ B, b = 2 * B + 1 := ⟨b / 2, by omega⟩
          rw [pand_cast, node_and2k_odd t B]
          rw [if_pos (by
            intro hcontra
            have h0 : (2:Nat) ^ (t + 1) = 0 := by exact_mod_cast hcontra
            have := Nat.pos_pow_of_pos (n := 2) (t + 1) (by norm_num)
            omega)]
          have hsub : ((2 ^ t * (2 * (2 * B + 1) + 1) : Nat) : Int) - ((2 ^ (t + 1) : Nat) : Int)
              = ((2 ^ t * (2 * (2 * B) + 1) : Nat) : Int) := by
            push_cast; ring
          rw [hsub]
          have hrcomp : 2 ^ t * (2 * B + 1) ≤ L.length := by omega
          obtain ⟨y, hy⟩ := segFold_some f L (2 ^ t * (2 * B)) (2 ^ t * (2 * B + 1))
            ((Nat.mul_lt_mul_left (by omega)).mpr (by omega)) (by omega)
          have hnodeR : nodeVal f L t (2 * B) = some y := by
            rw [nodeVal_eq_segFold f hf L t (2 * B) (by omega)]
            exact hy
          have hgetR : pyGet (specTree f L) ((2 ^ t * (2 * (2 * B) + 1) : Nat) : Int)
              = .ok (some y) := by
            apply pyGet_ok
            rw [specTree_get f L t (2 * B) (by
              have h2 : 2 ^ t * (2 * (2 * B) + 1) < 2 ^ t * (2 * (2 * B) + 2) :=
                (Nat.mul_lt_mul_left (by omega)).mpr (by omega)
              have h3 : 2 ^ t * (2 * (2 * B) + 2) = 2 * (2 ^ t * (2 * B + 1)) := by ring
              omega)]
            rw [hnodeR]
          simp only [hgetR]
          rw [accRight_some]
          simp only []
          have hright1 : omerge f (some y) (segFold f L (2 ^ t * (2 * B + 1)) hi)
              = segFold f L (2 ^ t * (2 * B)) hi := by
            rw [← hy]
            exact segFold_glue f hf L _ _ _ (Nat.mul_le_mul_left _ (by omega)) (by omega)
          rw [hright1]
          rw [pandnot_cast, por_cast, node_parent_even t (A + 1)]
          rw [pandnot_cast, por_cast, node_parent_even t B]
          rw [show (2:Nat) ^ t * (2 * A + 1 + 1) = 2 ^ (t + 1) * (A + 1) by ring]
          rw [show (2:Nat) ^ t * (2 * B) = 2 ^ (t + 1) * B by ring]
          exact ih (t + 1) (A + 1) B lo hi
            (by rw [show (2:Nat) ^ (t + 1) * (A + 1) = 2 ^ t * (2 * A + 1 + 1) by ring]
                have hmono : (2:Nat) ^ t * (2 * A + 1) ≤ 2 ^ t * (2 * A + 1 + 1) :=
                  Nat.mul_le_mul_left _ (by omega)
                omega)
            (by rw [show (2:Nat) ^ (t + 1) * B = 2 ^ t * (2 * B) by ring]
                have hmono : (2:Nat) ^ t * (2 * B) ≤ 2 ^ t * (2 * B + 1) :=
                  Nat.mul_le_mul_left _ (by omega)
                omega)
            hn (by omega) (by omega)

/-- `query` on a specified state with a valid range returns the left-to-right
fold of the queried positions. -/
theorem query_spec (f : T → T → T) (hf : ∀ a b c, f (f a b) c = f a (f b c))
    (L : List T) (i j : Nat) (hij : i < j) (hj : j ≤ L.length) :
    ∃ v, segFold f L i j = some v ∧ query f (specTree f L) (i : Int) (j : Int) = .ok v := by
  obtain ⟨v, hv⟩ := segFold_some f L i j hij hj
  refine ⟨v, hv, ?_⟩
  unfold query
  have hsz : size (specTree f L) = L.length := by
    rw [size_def, specTree_length]
    omega
  rw [hsz]
  rw [if_neg (by omega), if_neg (by omega), if_neg (by omega)]
  have hci : por (pshl ((i : Nat) : Int) 1) 1 = ((2 ^ 0 * (2 * i + 1) : Nat) : Int) := by
    rw [leafCoord]; push_cast; ring
  have hcj : por (pshl ((j : Nat) : Int) 1) 1 = ((2 ^ 0 * (2 * j + 1) : Nat) : Int) := by
    rw [leafCoord]; push_cast; ring
  rw [hci, hcj, specTree_length]
  obtain ⟨c, hc1, hc2, hrec⟩ := queryLoop_master f hf L (2 * L.length) 0 i j i j
    (by norm_num) (by norm_num) hj (by omega) (by omega)
  rw [show ((2 ^ 0 : Nat) : Int) = 1 by norm_num] at hrec
  rw [show (2:Nat) ^ 0 * i = i by norm_num] at hrec
  rw [show (2:Nat) ^ 0 * j = j by norm_num] at hrec
  rw [segFold_self, segFold_self] at hrec
  rw [hrec]
  have hglue := segFold_glue f hf L i c j hc1 hc2
  rw [hv] at hglue
  cases hL2 : segFold f L i c with
  | none =>
    cases hR2 : segFold f L c j with
    | none =>
      rw [hL2, hR2] at hglue
      simp [omerge] at hglue
    | some r =>
      rw [hL2, hR2] at hglue
      simp only [omerge] at hglue
      simp only []
      rw [show r = v by injection hglue]
  | some l =>
    cases hR2 : segFold f L c j with
    | none =>
      rw [hL2, hR2] at hglue
      simp only [omerge] at hglue
      simp only []
      rw [show l = v by injection hglue]
    | some r =>
      rw [hL2, hR2] at hglue
      simp only [omerge] at hglue
      simp only []
      rw [show f l r = v by injection hglue]

/-!
## Public interface lemmas
-/

theorem pand_pnot_neg2 {x y : Int} (hx : x < 0) (hy : 0 ≤ y) : pand x (pnot y) < 0 := by
  unfold pand
  rw [if_neg (by omega), if_neg (by have := pnot_neg_of_nonneg hy; omega)]
  exact pnot_neg_of_nonneg (by positivity)

theorem por_neg2 {x y : Int} (hx : x < 0) (hy : 0 ≤ y) : por x y < 0 := by
  unfold por
  rw [if_neg (by omega), if_pos hy]
  exact pnot_neg_of_nonneg (by positivity)

theorem pshl_nonneg2 {x : Int} (hx : 0 ≤ x) (n : Nat) : 0 ≤ pshl x n := by
  unfold pshl
  positivity

theorem pyGet_neg {α : Type} (l : List α) (i : Int) (h1 : 0 ≤ i + l.length) (h2 : i < 0)
    {a : α} (ha : l[(i + l.length).toNat]? = some a) : pyGet l i = .ok a := by
  have hidx : pyIdx l.length i = some (i + l.length).toNat := by
    unfold pyIdx
    rw [if_neg (by omega), if_pos (by omega)]
  unfold pyGet
  rw [hidx]
  simp only [ha]

theorem pyGet_oob_neg {α : Type} (l : List α) (i : Int) (h : i + l.length < 0) :
    pyGet l i = .error .indexError := by
  have hidx : pyIdx l.length i = none := by
    unfold pyIdx
    rw [if_neg (by omega), if_neg (by omega)]
  unfold pyGet
  rw [hidx]

theorem pySet_oob_neg {α : Type} (l : List α) (i : Int) (h : i + l.length < 0) (v : α) :
    pySet l i v = .error .indexError := by
  have hidx : pyIdx l.length i = none := by
    unfold pyIdx
    rw [if_neg (by omega), if_neg (by omega)]
  unfold pySet
  rw [hidx]

/-- `get` with an in-range nonnegative index returns the stored element. -/
theorem getitem_spec_nat (f : T → T → T) (L : List T) (x : Nat) (hx : x < L.length) :
    getitem (specTree f L) ((x : Nat) : Int) = .ok (L[x]?) := by
  unfold getitem
  have hco : por (pshl ((x : Nat) : Int) 1) 1 = ((2 * x + 1 : Nat) : Int) := by
    rw [leafCoord]; push_cast; ring
  rw [hco]
  apply pyGet_ok
  rw [specTree_get_leaf f L x (by omega)]

/-- `get` with a negative index in `[-n, 0)` resolves Python-style to the
element at position `n + i`. -/
theorem getitem_spec_neg (f : T → T → T) (L : List T) (i : Int)
    (h1 : -(L.length : Int) ≤ i) (h2 : i < 0) :
    getitem (specTree f L) i = .ok (L[(i + L.length).toNat]?) := by
  unfold getitem
  rw [leafCoord]
  have hlen := specTree_length f L
  have hxlt : (i + L.length).toNat < L.length := by omega
  apply pyGet_neg
  · rw [hlen]; omega
  · omega
  · rw [hlen]
    have hco : (2 * i + 1 + ((2 * L.length : Nat) : Int)).toNat
        = 2 * (i + L.length).toNat + 1 := by
      push_cast
      omega
    rw [hco]
    rw [specTree_get_leaf f L _ (by omega)]

theorem getitem_oob_nat (f : T → T → T) (L : List T) (x : Nat) (hx : L.length ≤ x) :
    getitem (specTree f L) ((x : Nat) : Int) = .error .indexError := by
  unfold getitem
  have hco : por (pshl ((x : Nat) : Int) 1) 1 = ((2 * x + 1 : Nat) : Int) := by
    rw [leafCoord]; push_cast; ring
  rw [hco]
  apply pyGet_oob
  rw [specTree_length]
  omega

theorem getitem_oob_neg (f : T → T → T) (L : List T) (i : Int)
    (h : i < -(L.length : Int)) :
    getitem (specTree f L) i = .error .indexError := by
  unfold getitem
  rw [leafCoord]
  apply pyGet_oob_neg
  rw [specTree_length]
  push_cast
  omega

/-- `set` with a nonnegative out-of-range index raises immediately and leaves
the buffer unmodified. -/
theorem setitem_oob_nat (f : T → T → T) (tree : List (Option T)) (x : Nat)
    (hx : tree.length ≤ 2 * x + 1) (v : T) :
    setitem f tree ((x : Nat) : Int) v = (tree, some .indexError) := by
  unfold setitem
  have hco : por (pshl ((x : Nat) : Int) 1) 1 = ((2 * x + 1 : Nat) : Int) := by
    rw [leafCoord]; push_cast; ring
  rw [hco, pySet_oob _ _ hx]

theorem setitem_oob_neg (f : T → T → T) (tree : List (Option T)) (i : Int)
    (he : tree.length % 2 = 0)
    (h : i < -((tree.length >>> 1 : Nat) : Int)) (v : T) :
    setitem f tree i v = (tree, some .indexError) := by
  unfold setitem
  rw [leafCoord]
  rw [pySet_oob_neg _ _ (by
    rw [Nat.shiftRight_eq_div_pow] at h
    push_cast at h ⊢
    omega) (some v)]

/-- The `__setitem__` climb never terminates normally from a negative
coordinate: it always raises. -/
theorem setLoop_neg_fails (f : T → T → T) :
    ∀ fuel (tree : List (Option T)) (j k : Int), j < 0 → 0 ≤ k →
      (setLoop f fuel tree j k).2.isSome := by
  intro fuel
  induction fuel with
  | zero =>
    intro tree j k hj hk
    simp [setLoop]
  | succ fuel ih =>
    intro tree j k hj hk
    rw [setLoop]
    by_cases hg : por j (pshl k 1) < (tree.length : Int)
    · rw [if_pos hg]
      cases h1 : pyGet tree (pand j (pnot (pshl k 1))) with
      | error e => simp
      | ok a =>
        cases h2 : pyGet tree (por j (pshl k 1)) with
        | error e => simp
        | ok b =>
          cases a with
          | none => cases b <;> simp
          | some x =>
            cases b with
            | none => simp
            | some y =>
              simp only []
              cases h3 : pySet tree (por (pand j (pnot k)) (pshl k 1)) (some (f x y)) with
              | error e => simp
              | ok t2 =>
                simp only []
                exact ih t2 _ _
                  (por_neg2 (pand_pnot_neg2 hj hk) (pshl_nonneg2 hk 1))
                  (pshl_nonneg2 hk 1)
    · have hpn := por_neg2 hj (pshl_nonneg2 hk 1)
      exact absurd (by omega : por j (pshl k 1) < (tree.length : Int)) hg

/-- `set` with any negative index never completes normally. -/
theorem setitem_neg_fails (f : T → T → T) (tree : List (Option T)) (i : Int)
    (hi : i < 0) (v : T) : (setitem f tree i v).2.isSome := by
  unfold setitem
  cases hset : pySet tree (por (pshl i 1) 1) (some v) with
  | error e => simp
  | ok t1 =>
    simp only []
    apply setLoop_neg_fails
    · rw [leafCoord]; omega
    · norm_num

/-- `query` with an invalid range stops at one of the three asserts. -/
theorem query_invalid (f : T → T → T) (tree : List (Option T)) (i j : Int)
    (h : ¬(0 ≤ i ∧ i < j ∧ j ≤ (size tree : Int))) :
    query f tree i j = .error .assertionError := by
  unfold query
  by_cases h1 : 0 ≤ i ∧ i < (size tree : Int)
  · rw [if_neg (not_not_intro h1)]
    by_cases h2 : 0 < j ∧ j ≤ (size tree : Int)
    · rw [if_neg (not_not_intro h2), if_pos (by omega)]
    · rw [if_pos h2]
  · rw [if_pos h1]

theorem specTree_nil (f : T → T → T) : specTree f ([] : List T) = [] := by
  simp [specTree]

theorem iadd_assoc : ∀ a b c : Int, iadd (iadd a b) c = iadd a (iadd b c) := by
  intro a b c
  unfold iadd
  ring

/-!
## The claims
-/

/-- C1: in the concrete scenario (combine = integer addition, initial values
`[1,2,3,4,5,6]`) the reads and the append behave as the specification says
(`query(0,6) = 21`, `query(2,5) = 12`, `get(3) = 4`, after `append(7)`
`len() = 7` and `query(0,7) = 28`), but the final `set(2, 15)` does not
succeed: the `__setitem__` climb passes its buggy guard at the incomplete
sibling slot 12 and calls the combine operator with an absent operand
(Python raises `TypeError`), diverging from the specification, which expects
the set to succeed with `get(2) = 15` and `query(0,3) = 18`. -/
theorem claim_C1 :
    (initFold iadd [1, 2, 3, 4, 5, 6]).2 = none ∧
    query iadd (initFold iadd [1, 2, 3, 4, 5, 6]).1 (0 : Int) (6 : Int) = .ok 21 ∧
    query iadd (initFold iadd [1, 2, 3, 4, 5, 6]).1 (2 : Int) (5 : Int) = .ok 12 ∧
    getitem (initFold iadd [1, 2, 3, 4, 5, 6]).1 (3 : Int) = .ok (some 4) ∧
    (append iadd (initFold iadd [1, 2, 3, 4, 5, 6]).1 7).2 = none ∧
    size (append iadd (initFold iadd [1, 2, 3, 4, 5, 6]).1 7).1 = 7 ∧
    query iadd (append iadd (initFold iadd [1, 2, 3, 4, 5, 6]).1 7).1 (0 : Int) (7 : Int)
      = .ok 28 ∧
    (setitem iadd (append iadd (initFold iadd [1, 2, 3, 4, 5, 6]).1 7).1 (2 : Int) 15).2
      = some PyErr.typeError := by
  decide

/-- C2: on every reachable structure with an associative combine, every
valid query returns the left-to-right fold of the stored elements of the
queried range, and `get` returns exactly those stored elements. -/
theorem claim_C2 {T : Type} (f : T → T → T)
    (hf : ∀ a b c, f (f a b) c = f a (f b c))
    (L : List T) (tree : List (Option T)) (hr : Reach f L tree)
    (i j : Nat) (hij : i < j) (hj : j ≤ L.length) :
    (∀ x : Nat, x < L.length → getitem tree (x : Int) = .ok (L[x]?)) ∧
    ∃ v, segFold f L i j = some v ∧ query f tree (i : Int) (j : Int) = .ok v := by
  rw [reach_spec f hr]
  exact ⟨fun x hx => getitem_spec_nat f L x hx, query_spec f hf L i j hij hj⟩

/-- Witness for C2: combine `iadd`, contents `[1, 2]`, range `[0, 2)`. -/
theorem claim_C2_witness :
    (∀ x : Nat, x < ([1, 2] : List Int).length →
      getitem (initFold iadd [1, 2]).1 (x : Int) = .ok (([1, 2] : List Int)[x]?)) ∧
    ∃ v, segFold iadd [1, 2] 0 2 = some v ∧
      query iadd (initFold iadd [1, 2]).1 ((0 : Nat) : Int) ((2 : Nat) : Int) = .ok v :=
  claim_C2 iadd iadd_assoc [1, 2] (initFold iadd [1, 2]).1 (Reach.construct [1, 2]) 0 2
    (by decide) (by decide)

/-- C3: after every public operation the slot invariant holds: the buffer
has exactly `2 n` slots, slot 0 is permanently empty, and the slot of the
level-`t` node `2^t (2 m + 1)` holds the left-to-right fold of exactly the
leaves `[2^t m, 2^t (m+1))` of its subtree when that subtree is complete
under the current `n`, and is empty otherwise — no stale aggregate is
visible after any operation. -/
theorem claim_C3 {T : Type} (f : T → T → T)
    (hf : ∀ a b c, f (f a b) c = f a (f b c))
    (L : List T) (tree : List (Option T)) (hr : Reach f L tree) :
    tree.length = 2 * L.length ∧
    (0 < L.length → tree[(0 : Nat)]? = some none) ∧
    ∀ t m : Nat, 2 ^ t * (2 * m + 1) < tree.length →
      tree[2 ^ t * (2 * m + 1)]? =
        some (if 2 ^ t * (m + 1) ≤ L.length
              then segFold f L (2 ^ t * m) (2 ^ t * (m + 1)) else none) := by
  rw [reach_spec f hr]
  refine ⟨specTree_length f L, fun h0 => specTree_get_zero f L h0, ?_⟩
  intro t m hc
  rw [specTree_length] at hc
  rw [specTree_get f L t m hc]
  by_cases hcm : 2 ^ t * (m + 1) ≤ L.length
  · rw [if_pos hcm, nodeVal_eq_segFold f hf L t m hcm]
  · rw [if_neg hcm, nodeVal_none_of_incomplete f L t m (by omega)]

/-- Witness for C3: combine `iadd`, contents `[1, 2, 3]`. -/
theorem claim_C3_witness :
    (initFold iadd [1, 2, 3]).1.length = 2 * ([1, 2, 3] : List Int).length ∧
    (0 < ([1, 2, 3] : List Int).length →
      (initFold iadd [1, 2, 3]).1[(0 : Nat)]? = some none) ∧
    ∀ t m : Nat, 2 ^ t * (2 * m + 1) < (initFold iadd [1, 2, 3]).1.length →
      (initFold iadd [1, 2, 3]).1[2 ^ t * (2 * m + 1)]? =
        some (if 2 ^ t * (m + 1) ≤ ([1, 2, 3] : List Int).length
              then segFold iadd [1, 2, 3] (2 ^ t * m) (2 ^ t * (m + 1)) else none) :=
  claim_C3 iadd iadd_assoc [1, 2, 3] (initFold iadd [1, 2, 3]).1 (Reach.construct [1, 2, 3])

/-- C4: the guarantee that the combine operator is never invoked with an
absent operand fails in `__setitem__`: on the reachable 7-element structure
built from `[1,...,7]`, the in-range `set(0, 99)` climb passes the buggy
guard `j | (k<<1) < len(tree)` at the in-buffer incomplete right sibling 12
and calls `func(tree[4], tree[12])` with `tree[12] = None`, which Python
reports as a `TypeError` from the combine operator. -/
theorem claim_C4 :
    Reach iadd [1, 2, 3, 4, 5, 6, 7] (initFold iadd [1, 2, 3, 4, 5, 6, 7]).1 ∧
    ((0 : Nat) : Int) < (([1, 2, 3, 4, 5, 6, 7] : List Int).length : Int) ∧
    (setitem iadd (initFold iadd [1, 2, 3, 4, 5, 6, 7]).1 ((0 : Nat) : Int) 99).2
      = some PyErr.typeError :=
  ⟨Reach.construct [1, 2, 3, 4, 5, 6, 7], by decide, by decide⟩

/-- C5: constructing from `P ++ [v]` and constructing from `P` followed by
`append v` both complete normally and yield the same buffer, hence
identical results for every `get` and every `query` — for every combine
operator, associative or not. -/
theorem claim_C5 {T : Type} (f : T → T → T) (P : List T) (v : T) :
    (initFold f (P ++ [v])).1 = (append f (initFold f P).1 v).1 ∧
    (initFold f (P ++ [v])).2 = none ∧
    (append f (initFold f P).1 v).2 = none ∧
    (∀ i : Int, getitem (initFold f (P ++ [v])).1 i
        = getitem (append f (initFold f P).1 v).1 i) ∧
    (∀ i j : Int, query f (initFold f (P ++ [v])).1 i j
        = query f (append f (initFold f P).1 v).1 i j) := by
  have h1a : (initFold f (P ++ [v])).1 = specTree f (P ++ [v]) := by rw [initFold_spec]
  have h2a : (initFold f P).1 = specTree f P := by rw [initFold_spec]
  have h3 : append f (initFold f P).1 v = (specTree f (P ++ [v]), none) := by
    rw [h2a, append_spec]
  have h3a : (append f (initFold f P).1 v).1 = specTree f (P ++ [v]) := by rw [h3]
  refine ⟨by rw [h1a, h3a], by rw [initFold_spec], by rw [h3], ?_, ?_⟩
  · intro i; rw [h1a, h3a]
  · intro i j; rw [h1a, h3a]

/-- Counterexample to C6 as stated: on the reachable one-element structure
`[5]`, `get(-1)` does not fail although `-1` lies outside `[0, n)` — Python
negative indexing resolves it to the last element. -/
theorem claim_C6_counterexample :
    Reach iadd [5] (initFold iadd [5]).1 ∧
    getitem (initFold iadd [5]).1 (-1 : Int) = .ok (some 5) :=
  ⟨Reach.construct [5], by decide⟩

/-- C6 (amended): on every reachable structure, `get` succeeds on `[0, n)`
and — unlike the out-of-range error the specification demands — also on
`[-n, 0)` (Python negative indexing), and raises `IndexError` exactly
outside `[-n, n)`; `set` raises for every nonnegative `i ≥ n` and fails for
every `i < 0`; `query` raises its assertion error exactly when the range is
invalid (`query(i,i)` included); and on an empty structure every `get`,
`set` and `query` fails (covered by the previous parts with `n = 0`) while
`append` succeeds. -/
theorem claim_C6 {T : Type} (f : T → T → T)
    (hf : ∀ a b c, f (f a b) c = f a (f b c))
    (L : List T) (tree : List (Option T)) (hr : Reach f L tree) (v : T) :
    (∀ x : Nat, x < L.length → getitem tree (x : Int) = .ok (L[x]?)) ∧
    (∀ x : Nat, L.length ≤ x → getitem tree (x : Int) = .error .indexError) ∧
    (∀ i : Int, -(L.length : Int) ≤ i → i < 0 →
      getitem tree i = .ok (L[(i + L.length).toNat]?)) ∧
    (∀ i : Int, i < -(L.length : Int) → getitem tree i = .error .indexError) ∧
    (∀ x : Nat, L.length ≤ x →
      setitem f tree (x : Int) v = (tree, some PyErr.indexError)) ∧
    (∀ i : Int, i < 0 → (setitem f tree i v).2.isSome) ∧
    (∀ i j : Int, query f tree i j = .error .assertionError ↔
      ¬(0 ≤ i ∧ i < j ∧ j ≤ (L.length : Int))) ∧
    (L = [] → (append f tree v).2 = none) := by
  have hspec := reach_spec f hr
  subst hspec
  have hsz : ((size (specTree f L) : Nat) : Int) = (L.length : Int) := by
    rw [size_def, specTree_length]
    push_cast [Nat.mul_div_cancel_left]
    rfl
  refine ⟨fun x hx => getitem_spec_nat f L x hx,
    fun x hx => getitem_oob_nat f L x hx,
    fun i h1 h2 => getitem_spec_neg f L i h1 h2,
    fun i h => getitem_oob_neg f L i h,
    fun x hx => setitem_oob_nat f (specTree f L) x (by rw [specTree_length]; omega) v,
    fun i hi => setitem_neg_fails f (specTree f L) i hi v,
    fun i j => ?_,
    fun hL => by subst hL; rw [append_spec]⟩
  constructor
  · intro hq
    by_contra hvr
    obtain ⟨hi0, hij, hjn⟩ := hvr
    rw [show i = ((i.toNat : Nat) : Int) by omega,
      show j = ((j.toNat : Nat) : Int) by omega] at hq
    obtain ⟨w, _, hq'⟩ := query_spec f hf L i.toNat j.toNat (by omega) (by omega)
    rw [hq'] at hq
    simp at hq
  · intro hval
    apply query_invalid
    rw [hsz]
    exact hval

/-- Witness for C6: combine `iadd`, contents `[1]`, update value `9`. -/
theorem claim_C6_witness :
    (∀ x : Nat, x < ([1] : List Int).length →
      getitem (initFold iadd [1]).1 (x : Int) = .ok (([1] : List Int)[x]?)) ∧
    (∀ x : Nat, ([1] : List Int).length ≤ x →
      getitem (initFold iadd [1]).1 (x : Int) = .error .indexError) ∧
    (∀ i : Int, -((([1] : List Int).length : Nat) : Int) ≤ i → i < 0 →
      getitem (initFold iadd [1]).1 i = .ok (([1] : List Int)[(i + ([1] : List Int).length).toNat]?)) ∧
    (∀ i : Int, i < -((([1] : List Int).length : Nat) : Int) →
      getitem (initFold iadd [1]).1 i = .error .indexError) ∧
    (∀ x : Nat, ([1] : List Int).length ≤ x →
      setitem iadd (initFold iadd [1]).1 (x : Int) 9 = ((initFold iadd [1]).1, some PyErr.indexError)) ∧
    (∀ i : Int, i < 0 → (setitem iadd (initFold iadd [1]).1 i 9).2.isSome) ∧
    (∀ i j : Int, query iadd (initFold iadd [1]).1 i j = .error .assertionError ↔
      ¬(0 ≤ i ∧ i < j ∧ j ≤ ((([1] : List Int).length : Nat) : Int))) ∧
    (([1] : List Int) = [] → (append iadd (initFold iadd [1]).1 9).2 = none) :=
  claim_C6 iadd iadd_assoc [1] (initFold iadd [1]).1 (Reach.construct [1]) 9

/-- Counterexample to C7 as stated: on the reachable structure `[5]`, the
failing `set(-1, 7)` raises `IndexError` only after overwriting the leaf
slot (reached by Python negative indexing), so the buffer is modified by a
failing operation. -/
theorem claim_C7_counterexample :
    Reach iadd [5] (initFold iadd [5]).1 ∧
    (setitem iadd (initFold iadd [5]).1 (-1 : Int) 7).2 = some PyErr.indexError ∧
    (setitem iadd (initFold iadd [5]).1 (-1 : Int) 7).1 ≠ (initFold iadd [5]).1 :=
  ⟨Reach.construct [5], by decide, by decide⟩

/-- C7 (amended): `get` and `query` never write the buffer, and a `set`
that fails its index check before writing — every nonnegative `i ≥ n` and
every `i < -n` — returns the buffer completely unmodified; a `set` at
`i ∈ [-n, 0)` however mutates the leaf before failing (see the
counterexample). -/
theorem claim_C7 {T : Type} (f : T → T → T) (L : List T)
    (tree : List (Option T)) (hr : Reach f L tree) (v : T) :
    (∀ x : Nat, L.length ≤ x →
      setitem f tree (x : Int) v = (tree, some PyErr.indexError)) ∧
    (∀ i : Int, i < -(L.length : Int) →
      setitem f tree i v = (tree, some PyErr.indexError)) := by
  have hspec := reach_spec f hr
  subst hspec
  constructor
  · intro x hx
    exact setitem_oob_nat f (specTree f L) x (by rw [specTree_length]; omega) v
  · intro i hi
    exact setitem_oob_neg f (specTree f L) i (by rw [specTree_length]; omega)
      (by rw [specTree_length, Nat.shiftRight_eq_div_pow]
          have h2 : 2 * L.length / 2 ^ 1 = L.length := by omega
          rw [h2]
          exact hi) v

/-- Witness for C7: combine `iadd`, contents `[1]`, update value `9`. -/
theorem claim_C7_witness :
    (∀ x : Nat, ([1] : List Int).length ≤ x →
      setitem iadd (initFold iadd [1]).1 (x : Int) 9
        = ((initFold iadd [1]).1, some PyErr.indexError)) ∧
    (∀ i : Int, i < -((([1] : List Int).length : Nat) : Int) →
      setitem iadd (initFold iadd [1]).1 i 9
        = ((initFold iadd [1]).1, some PyErr.indexError)) :=
  claim_C7 iadd [1] (initFold iadd [1]).1 (Reach.construct [1]) 9

/-- C8: on every reachable structure `append(v)` completes normally, grows
the buffer by exactly two slots, increases the element count by one, leaves
a reachable structure, makes `v` immediately retrievable at index `n`, and
(for an associative combine) every valid query spanning the new index folds
`v` in correctly as the last element. -/
theorem claim_C8 {T : Type} (f : T → T → T) (L : List T)
    (tree : List (Option T)) (hr : Reach f L tree) (v : T) :
    ∃ tree', append f tree v = (tree', none) ∧
      tree'.length = tree.length + 2 ∧
      size tree' = size tree + 1 ∧
      Reach f (L ++ [v]) tree' ∧
      getitem tree' ((L.length : Nat) : Int) = .ok (some v) ∧
      ∀ _hf : (∀ a b c, f (f a b) c = f a (f b c)), ∀ i : Nat, i ≤ L.length →
        ∃ w, segFold f (L ++ [v]) i (L.length + 1) = some w ∧
          query f tree' (i : Int) ((L.length + 1 : Nat) : Int) = .ok w := by
  have hspec := reach_spec f hr
  have happ : append f tree v = (specTree f (L ++ [v]), none) := by
    rw [hspec, append_spec]
  refine ⟨specTree f (L ++ [v]), happ, ?_, ?_, ?_, ?_, ?_⟩
  · rw [specTree_length, hspec, specTree_length]
    simp only [List.length_append, List.length_singleton]
    omega
  · rw [size_def, size_def, hspec, specTree_length, specTree_length]
    simp only [List.length_append, List.length_singleton]
    omega
  · exact Reach.appendOk v (specTree f (L ++ [v])) hr happ
  · rw [getitem_spec_nat f (L ++ [v]) L.length (by simp), List.getElem?_concat_length]
  · intro hf i hi
    exact query_spec f hf (L ++ [v]) i (L.length + 1) (by omega) (by simp)

/-- Witness for C8: combine `iadd`, contents `[1]`, appended value `2`. -/
theorem claim_C8_witness :
    ∃ tree', append iadd (initFold iadd [1]).1 2 = (tree', none) ∧
      tree'.length = (initFold iadd [1]).1.length + 2 ∧
      size tree' = size (initFold iadd [1]).1 + 1 ∧
      Reach iadd ([1] ++ [2]) tree' ∧
      getitem tree' ((([1] : List Int).length : Nat) : Int) = .ok (some 2) ∧
      ∀ _hf : (∀ a b c : Int, iadd (iadd a b) c = iadd a (iadd b c)),
        ∀ i : Nat, i ≤ ([1] : List Int).length →
        ∃ w, segFold iadd ([1] ++ [2]) i (([1] : List Int).length + 1) = some w ∧
          query iadd tree' (i : Int) (((([1] : List Int).length + 1 : Nat)) : Int) = .ok w :=
  claim_C8 iadd [1] (initFold iadd [1]).1 (Reach.construct [1]) 2

/-- C9: on every reachable structure with an associative combine, a valid
query never ends in the internal invariant-violation branch (both
accumulators empty when the loop terminates). -/
theorem claim_C9 {T : Type} (f : T → T → T)
    (hf : ∀ a b c, f (f a b) c = f a (f b c))
    (L : List T) (tree : List (Option T)) (hr : Reach f L tree)
    (i j : Nat) (hij : i < j) (hj : j ≤ L.length) :
    query f tree (i : Int) (j : Int) ≠ .error PyErr.invariantViolation := by
  rw [reach_spec f hr]
  obtain ⟨w, _, hq⟩ := query_spec f hf L i j hij hj
  rw [hq]
  simp

/-- Witness for C9: combine `iadd`, contents `[1, 2]`, range `[0, 2)`. -/
theorem claim_C9_witness :
    query iadd (initFold iadd [1, 2]).1 ((0 : Nat) : Int) ((2 : Nat) : Int)
      ≠ .error PyErr.invariantViolation :=
  claim_C9 iadd iadd_assoc [1, 2] (initFold iadd [1, 2]).1 (Reach.construct [1, 2]) 0 2
    (by decide) (by decide)

/-- C10: on every reachable structure with `n ≥ 1`, `get` with a negative
index `i ∈ [-n, 0)` succeeds and returns the element at logical position
`n + i` — Python-style negative indexing at the public interface. -/
theorem claim_C10 {T : Type} (f : T → T → T) (L : List T)
    (tree : List (Option T)) (hr : Reach f L tree) (hn : 1 ≤ L.length)
    (i : Int) (h1 : -(L.length : Int) ≤ i) (h2 : i < 0) :
    ∃ w : T, L[(i + L.length).toNat]? = some w ∧ getitem tree i = .ok (some w) := by
  rw [reach_spec f hr]
  have hx : (i + L.length).toNat < L.length := by omega
  refine ⟨L.get ⟨(i + L.length).toNat, hx⟩, ?_, ?_⟩
  · rw [List.getElem?_eq_getElem hx]
    rfl
  · rw [getitem_spec_neg f L i h1 h2, List.getElem?_eq_getElem hx]
    rfl

/-- Witness for C10: combine `iadd`, contents `[5]`, index `-1`. -/
theorem claim_C10_witness :
    ∃ w : Int, ([5] : List Int)[((-1 : Int) + (([5] : List Int).length : Nat)).toNat]? = some w ∧
      getitem (initFold iadd [5]).1 (-1 : Int) = .ok (some w) :=
  claim_C10 iadd [5] (initFold iadd [5]).1 (Reach.construct [5]) (by decide) (-1)
    (by decide) (by decide)
